import Mathlib

set_option maxHeartbeats 1000000

/-!
Formal model of the hat-backup hash index.

Source files embedded here:
  src/hat/hash_index.rs         (the HashIndex actor and its message handler)
  src/hat/ordered_collection.rs (the OrderedCollection impl for BTreeMap)

A BTreeMap is modelled as an association list kept sorted by key; the
in-memory SQLite table hash_index is modelled as the list of rows in
insertion order, plus a counter of how many rows the last COMMIT made
durable.  Callbacks (Rust Thunk values) are opaque and modelled by Nat
identifiers; invoking one is recorded as an event rather than executed.
A fatal path (a Rust assert or expect failure) is modelled as none.
The PeriodicTimer is modelled by a Bool oracle passed with each message,
telling whether did_fire returns true for the maybe_flush calls of that
message.
-/

/-- Byte strings (Rust Vec u8) modelled as lists of naturals. -/
abbrev Bytes := List Nat

/-- HashEntry from hash_index.rs: the caller-supplied record for a digest. -/
structure HashEntry where
  hash : Bytes
  level : Int
  payload : Option Bytes
  persistent_ref : Option Bytes
deriving DecidableEq

/-- QueueEntry from hash_index.rs: the in-memory record for a reserved digest. -/
structure QueueEntry where
  id : Int
  level : Int
  payload : Option Bytes
  persistent_ref : Option Bytes
deriving DecidableEq

/-- One row of the SQLite table hash_index (id, hash, height, payload, blob_ref). -/
structure Row where
  id : Int
  hash : Bytes
  height : Int
  payload : Bytes
  blob_ref : Bytes
deriving DecidableEq

/-- find_min from ordered_collection.rs: iter().next() on a BTreeMap, i.e. the
binding with the least key; on the sorted-association-list model this is the
head of the list. -/
def find_min {K V : Type} (m : List (K × V)) : Option (K × V) :=
  m.head?

/-- BTreeMap.remove(k) on the sorted-association-list model: drop the binding
whose key is k. -/
def mapRemove {K V : Type} [DecidableEq K] (m : List (K × V)) (k : K) : List (K × V) :=
  m.eraseP (fun p => decide (p.1 = k))

/-- pop_min_when from ordered_collection.rs: if the minimum-key binding
satisfies ready, remove and return it; otherwise return none and leave the
map unchanged. -/
def pop_min_when {K V : Type} [DecidableEq K] (ready : K → V → Bool) (m : List (K × V)) :
    Option (K × V) × List (K × V) :=
  match find_min m with
  | none => (none, m)
  | some kv => if ready kv.1 kv.2 then (some kv, mapRemove m kv.1) else (none, m)

/-- The value attached to a priority id in the unique priority queue:
the digest and its QueueEntry. -/
structure QVal where
  digest : Bytes
  entry : QueueEntry
deriving DecidableEq

/-- Modelled from the spec: unique_priority_queue.rs is not under src/.
Spec 4.2: a strictly-ordered map from id to entry, a digest-to-id map and a
set of ready ids; here the ordered map is a by-id sorted association list
carrying the digest alongside the entry, and ready is the list of ids
marked ready. -/
structure UPQ where
  items : List (Int × QVal)
  ready : List Int
deriving DecidableEq

/-- Ordered insertion by id into the by-id sorted association list. -/
def insertSorted (x : Int × QVal) : List (Int × QVal) → List (Int × QVal)
  | [] => [x]
  | y :: t => if x.1 ≤ y.1 then x :: y :: t else y :: insertSorted x t

/-- Lookup of the item (id and value) stored under a digest. -/
def UPQ.find_item (q : UPQ) (d : Bytes) : Option (Int × QVal) :=
  q.items.find? (fun p => decide (p.2.digest = d))

/-- Modelled from the spec: UniquePriorityQueue::find_key (spec 4.2 find_id). -/
def UPQ.find_key (q : UPQ) (d : Bytes) : Option Int :=
  (q.find_item d).map (fun p => p.1)

/-- Modelled from the spec: UniquePriorityQueue::find_value_of_key. -/
def UPQ.find_value_of_key (q : UPQ) (d : Bytes) : Option QueueEntry :=
  (q.find_item d).map (fun p => p.2.entry)

/-- Modelled from the spec: UniquePriorityQueue::reserve_priority followed by
put_value; HashIndex::reserve always calls the two back to back, so they are
modelled as one insertion.  Fails (none) if the digest is already present. -/
def UPQ.reserve_put (q : UPQ) (id : Int) (d : Bytes) (qe : QueueEntry) : Option UPQ :=
  match q.find_item d with
  | some _ => none
  | none => some { q with items := insertSorted (id, { digest := d, entry := qe }) q.items }

/-- Modelled from the spec: UniquePriorityQueue::update_value applies f to the
entry stored under the digest (spec 4.2: fails if the digest is absent; the
absence check is made at the call sites, which model the failure). -/
def UPQ.update_value (q : UPQ) (d : Bytes) (f : QueueEntry → QueueEntry) : UPQ :=
  { q with items := q.items.map (fun p =>
      if p.2.digest = d then (p.1, { digest := p.2.digest, entry := f p.2.entry }) else p) }

/-- Modelled from the spec: UniquePriorityQueue::set_ready, idempotent. -/
def UPQ.set_ready (q : UPQ) (id : Int) : UPQ :=
  if id ∈ q.ready then q else { q with ready := id :: q.ready }

/-- Modelled from the spec: UniquePriorityQueue::pop_min_if_complete, built on
pop_min_when of ordered_collection.rs with readiness as the predicate: pop the
minimum-id item when it is marked ready, otherwise pop nothing. -/
def UPQ.pop_min_if_complete (q : UPQ) : Option (Int × QVal) × UPQ :=
  match pop_min_when (fun id _ => decide (id ∈ q.ready)) q.items with
  | (none, _) => (none, q)
  | (some kv, items') => (some kv, { q with items := items' })

/-- Events observable in a run: an id handed out by reserve, a row INSERT into
the hash_index table, a database COMMIT, a registered callback invoked by
CallbackContainer::flush, and a callback invoked immediately (registration
against an already-durable digest). -/
inductive Event where
  | reserved (id : Int)
  | insertRow (id : Int) (hash : Bytes)
  | dbCommit
  | fireFlush (digest : Bytes) (k : Nat)
  | fireNow (k : Nat)
deriving DecidableEq

/-- Modelled from the spec: callback_container.rs is not under src/.
Spec 4.4: digest to ordered list of continuations plus a flushable flag. -/
structure CallbackContainer where
  entries : List (Bytes × List Nat × Bool)
deriving DecidableEq

/-- Modelled from the spec: CallbackContainer::add appends the continuation to
the digest's list, creating the entry with flushable false when absent. -/
def CallbackContainer.add (c : CallbackContainer) (d : Bytes) (k : Nat) : CallbackContainer :=
  match c.entries.find? (fun e => decide (e.1 = d)) with
  | some _ => { entries := c.entries.map (fun e =>
      if e.1 = d then (e.1, e.2.1 ++ [k], e.2.2) else e) }
  | none => { entries := c.entries ++ [(d, [k], false)] }

/-- Modelled from the spec: CallbackContainer::allow_flush_of sets the
flushable flag of the digest. -/
def CallbackContainer.allow_flush_of (c : CallbackContainer) (d : Bytes) : CallbackContainer :=
  { entries := c.entries.map (fun e => if e.1 = d then (e.1, e.2.1, true) else e) }

/-- The invocation events produced by CallbackContainer::flush: every
continuation of every flushable digest, in registration order. -/
def CallbackContainer.firedEvents (c : CallbackContainer) : List Event :=
  (c.entries.filter (fun e => e.2.2)).flatMap (fun e => e.2.1.map (fun k => Event.fireFlush e.1 k))

/-- Modelled from the spec: CallbackContainer::flush invokes and removes the
continuations of every flushable digest, leaving the others untouched. -/
def CallbackContainer.flush (c : CallbackContainer) : CallbackContainer × List Event :=
  ({ entries := c.entries.filter (fun e => !e.2.2) }, c.firedEvents)

/-- The state of the HashIndex actor: the rows of the hash_index table in
insertion order, how many of them the last database COMMIT covers, the id
counter (CumulativeCounter, modelled from the spec as the last id issued),
the pending queue and the callback registry. -/
structure HashIndexState where
  store : List Row
  committedLen : Nat
  idCounter : Int
  queue : UPQ
  callbacks : CallbackContainer
deriving DecidableEq

/-- HashIndex::index_locate: SELECT by digest from the hash_index table; a
missing payload column round-trips as empty bytes, folded back to none, and
the blob_ref column is always returned as a present reference. -/
def index_locate (s : HashIndexState) (h : Bytes) : Option QueueEntry :=
  match s.store.find? (fun r => decide (r.hash = h)) with
  | none => none
  | some r => some { id := r.id, level := r.height,
                     payload := if r.payload = [] then none else some r.payload,
                     persistent_ref := some r.blob_ref }

/-- HashIndex::locate: the pending queue first, then the durable table. -/
def locate (s : HashIndexState) (h : Bytes) : Option QueueEntry :=
  match s.queue.find_value_of_key h with
  | some qe => some qe
  | none => index_locate s h

/-- HashIndex::flush: COMMIT; BEGIN on the database, then run the ready
callbacks.  The COMMIT makes every inserted row durable. -/
def flush (s : HashIndexState) : HashIndexState × List Event :=
  (({ s with committedLen := s.store.length, callbacks := s.callbacks.flush.1 }),
   Event.dbCommit :: s.callbacks.firedEvents)

/-- HashIndex::maybe_flush with the timer oracle t. -/
def maybe_flush (s : HashIndexState) (t : Bool) : HashIndexState × List Event :=
  if t then flush s else (s, [])

/-- The row built by HashIndex::insert_completed_in_order for a drained entry:
a missing payload is persisted as empty bytes. -/
def mkRow (id : Int) (h : Bytes) (qe : QueueEntry) (pref : Bytes) : Row :=
  { id := id, hash := h, height := qe.level, payload := qe.payload.getD [], blob_ref := pref }

/-- HashIndex::insert_completed_in_order: repeatedly pop the minimum-id ready
entry and INSERT it; a popped entry without a persistent_ref is the expect
failure of the source (none), and an INSERT violating the unique index on
hash or the primary key on id is a failed assert (none).  The loop runs at
most (queue length) iterations, which the fuel argument supplies. -/
def insert_completed_in_order : Nat → HashIndexState → Option (HashIndexState × List Event)
  | 0, s => some (s, [])
  | fuel+1, s =>
    match s.queue.pop_min_if_complete with
    | (none, _) => some (s, [])
    | (some (id, v), q') =>
      match v.entry.persistent_ref with
      | none => none
      | some pref =>
        if (s.store.find? (fun r => decide (r.hash = v.digest ∨ r.id = id))).isSome then none
        else
          match insert_completed_in_order fuel
              { s with store := s.store ++ [mkRow id v.digest v.entry pref],
                       queue := q',
                       callbacks := s.callbacks.allow_flush_of v.digest } with
          | none => none
          | some (s', evs) => some (s', Event.insertRow id v.digest :: evs)

/-- HashIndex::reserve: maybe_flush, take the next id (CumulativeCounter::next,
modelled from the spec as the successor of the last issued id), then insert
the entry into the queue under the digest. -/
def reserve (s : HashIndexState) (he : HashEntry) (t : Bool) : Option (HashIndexState × List Event) :=
  let sp := maybe_flush s t
  let my_id := sp.1.idCounter + 1
  let s2 := { sp.1 with idCounter := my_id }
  match s2.queue.reserve_put my_id he.hash
      { id := my_id, level := he.level, payload := he.payload, persistent_ref := he.persistent_ref } with
  | none => none
  | some q => some ({ s2 with queue := q }, sp.2 ++ [Event.reserved my_id])

/-- HashIndex::update_reserved: locate must succeed (expect), then if the
digest is still queued, replace level, payload and persistent_ref in place
(id unchanged); if already drained, silently no-op. -/
def update_reserved (s : HashIndexState) (he : HashEntry) : Option HashIndexState :=
  match locate s he.hash with
  | none => none
  | some old =>
    match s.queue.find_key he.hash with
    | none => some s
    | some id =>
      if id = old.id then
        some { s with queue := s.queue.update_value he.hash (fun qe =>
          { qe with level := he.level, payload := he.payload, persistent_ref := he.persistent_ref }) }
      else none

/-- HashIndex::commit: locate must succeed (expect), the digest must still be
queued (update_value fails on an absent digest), then update the
persistent_ref, set the entry ready, drain in id order and maybe_flush. -/
def commit (s : HashIndexState) (h : Bytes) (blob_ref : Bytes) (t : Bool) :
    Option (HashIndexState × List Event) :=
  match locate s h with
  | none => none
  | some qe =>
    match s.queue.find_key h with
    | none => none
    | some _ =>
      let s1 := { s with queue :=
        (s.queue.update_value h (fun old => { old with persistent_ref := some blob_ref })).set_ready qe.id }
      match insert_completed_in_order s1.queue.items.length s1 with
      | none => none
      | some (s2, evs) =>
        let sp := maybe_flush s2 t
        some (sp.1, evs ++ sp.2)

/-- HashIndex::register_hash_callback: store the callback if the digest is
queued, invoke it at once if the digest is durable, and report failure if the
digest is unknown. -/
def register_hash_callback (s : HashIndexState) (h : Bytes) (k : Nat) :
    Bool × HashIndexState × List Event :=
  if (s.queue.find_value_of_key h).isSome then
    (true, { s with callbacks := s.callbacks.add h k }, [])
  else if (locate s h).isSome then
    (true, s, [Event.fireNow k])
  else (false, s, [])

/-- The message alphabet of the hash index (enum Msg of hash_index.rs). -/
inductive Msg where
  | hashExists (h : Bytes)
  | fetchPayload (h : Bytes)
  | fetchPersistentRef (h : Bytes)
  | reserve (he : HashEntry)
  | updateReserved (he : HashEntry)
  | commit (h : Bytes) (blob_ref : Bytes)
  | callAfterHashIsComitted (h : Bytes) (k : Nat)
  | flush
deriving DecidableEq

/-- The reply alphabet of the hash index (enum Reply of hash_index.rs). -/
inductive Reply where
  | hashKnown
  | hashNotKnown
  | entry (e : HashEntry)
  | payload (p : Option Bytes)
  | persistentRef (r : Bytes)
  | reserveOK
  | commitOK
  | callbackRegistered
  | retry
deriving DecidableEq

/-- MsgHandler::handle of hash_index.rs; the Bool is the timer oracle for the
maybe_flush calls made while handling this message, and none is a fatal
panic (an empty digest, a commit of an unknown or drained digest, or a
broken internal assertion). -/
def handle (s : HashIndexState) (m : Msg) (t : Bool) :
    Option (HashIndexState × Reply × List Event) :=
  match m with
  | Msg.hashExists h =>
    if h = [] then none
    else some (s, (match locate s h with
      | some _ => Reply.hashKnown
      | none => Reply.hashNotKnown), [])
  | Msg.fetchPayload h =>
    if h = [] then none
    else some (s, (match locate s h with
      | some qe => Reply.payload qe.payload
      | none => Reply.hashNotKnown), [])
  | Msg.fetchPersistentRef h =>
    if h = [] then none
    else some (s, (match locate s h with
      | some qe =>
        match qe.persistent_ref with
        | none => Reply.retry
        | some r => Reply.persistentRef r
      | none => Reply.hashNotKnown), [])
  | Msg.reserve he =>
    if he.hash = [] then none
    else match locate s he.hash with
      | some _ => some (s, Reply.hashKnown, [])
      | none =>
        match reserve s he t with
        | none => none
        | some (s', evs) => some (s', Reply.reserveOK, evs)
  | Msg.updateReserved he =>
    if he.hash = [] then none
    else match update_reserved s he with
      | none => none
      | some s' => some (s', Reply.reserveOK, [])
  | Msg.commit h r =>
    if h = [] then none
    else match commit s h r t with
      | none => none
      | some (s', evs) => some (s', Reply.commitOK, evs)
  | Msg.callAfterHashIsComitted h k =>
    if h = [] then none
    else
      let rres := register_hash_callback s h k
      if rres.1 then some (rres.2.1, Reply.callbackRegistered, rres.2.2)
      else some (s, Reply.hashNotKnown, [])
  | Msg.flush =>
    some ((flush s).1, Reply.commitOK, (flush s).2)

/-- Run a list of messages (each with its timer oracle) from a state,
collecting the event trace; a fatal message terminates the index. -/
def run (s : HashIndexState) : List (Msg × Bool) → HashIndexState × List Event
  | [] => (s, [])
  | (m, t) :: rest =>
    match handle s m t with
    | none => (s, [])
    | some (s', _, evs) =>
      let r := run s' rest
      (r.1, evs ++ r.2)

/-- HashIndex::new over a fresh database: empty table, id counter at 0
(SELECT MAX(id) of an empty table is NULL, read as 0). -/
def initState : HashIndexState :=
  { store := [], committedLen := 0, idCounter := 0,
    queue := { items := [], ready := [] }, callbacks := { entries := [] } }

/-- HashIndex::refresh_id_counter's SELECT MAX(id): 0 on an empty table. -/
def maxId (rows : List Row) : Int :=
  rows.foldl (fun m r => max m r.id) 0

/-- HashIndex::new over an existing database holding the given rows: the id
counter restarts from the maximum durable id. -/
def reopenFrom (rows : List Row) : HashIndexState :=
  { store := rows, committedLen := rows.length, idCounter := maxId rows,
    queue := { items := [], ready := [] }, callbacks := { entries := [] } }

/-- Crash or shutdown and reopen: only the rows covered by the last database
COMMIT survive. -/
def reopen (s : HashIndexState) : HashIndexState :=
  reopenFrom (s.store.take s.committedLen)

/-- The ids of the rows inserted into the table, in trace order. -/
def insertedIds (tr : List Event) : List Int :=
  tr.filterMap (fun e => match e with
    | Event.insertRow id _ => some id
    | _ => none)

/-- The ids handed out by reserve, in trace order. -/
def reservedIds (tr : List Event) : List Int :=
  tr.filterMap (fun e => match e with
    | Event.reserved id => some id
    | _ => none)

/-- The list a, a+1, ..., a+n-1 of consecutive ids. -/
def idRange (a : Int) (n : Nat) : List Int :=
  (List.range n).map (fun (i : Nat) => a + (i : Int))

/-- Durability-gate bookkeeping over a trace: the digests whose row has been
inserted, and those whose insertion a database COMMIT already covers. -/
def gateStep (p : List Bytes × List Bytes) (e : Event) : List Bytes × List Bytes :=
  match e with
  | Event.insertRow _ h => (h :: p.1, p.2)
  | Event.dbCommit => (p.1, p.1)
  | _ => p

/-- The durability gate holds of a trace when every registered-callback
invocation fireFlush d k is preceded by a database COMMIT that itself is
preceded by the insertion of d's row. -/
def gateOK (p : List Bytes × List Bytes) : List Event → Bool
  | [] => true
  | e :: tr =>
    (match e with
     | Event.fireFlush d _ => decide (d ∈ p.2)
     | _ => true) && gateOK (gateStep p e) tr

/-- The events of an optional handler result. -/
def evsOf (o : Option (HashIndexState × Reply × List Event)) : List Event :=
  match o with
  | none => []
  | some x => x.2.2

/-- How many callback invocations (of either kind) a list of events holds. -/
def fireCount (evs : List Event) : Nat :=
  evs.countP (fun e => match e with
    | Event.fireFlush _ _ => true
    | Event.fireNow _ => true
    | _ => false)

/-- Keys of an association list in strictly ascending order: the model of the
BTreeMap ordering invariant. -/
def sortedKeys {K V : Type} [LT K] (m : List (K × V)) : Prop :=
  List.Chain' (fun a b => a < b) (m.map Prod.fst)

/-- Shape of a reachable state: the store holds exactly the ids 1..k in order,
the queue holds exactly the ids k+1..k+q in order, the counter is at k+q,
every queue item stores its own id, and every ready id has been issued. -/
def StateShape (s : HashIndexState) (k q : Nat) : Prop :=
  s.idCounter = (k : Int) + q ∧
  s.store.map Row.id = idRange 1 k ∧
  s.queue.items.map Prod.fst = idRange ((k : Int) + 1) q ∧
  (∀ p ∈ s.queue.items, p.1 = p.2.entry.id) ∧
  (∀ i ∈ s.queue.ready, i ≤ s.idCounter)

/-- Shape of a reachable state together with its trace: the inserted ids are
1..k and the reserved ids are 1..k+q. -/
def TraceShape (s : HashIndexState) (tr : List Event) : Prop :=
  ∃ k q : Nat, StateShape s k q ∧
    insertedIds tr = idRange 1 k ∧ reservedIds tr = idRange 1 (k + q)

/-- Every flushable digest of the registry already had its row inserted
(ins is the list of inserted digests so far). -/
def flushableOK (s : HashIndexState) (ins : List Bytes) : Prop :=
  ∀ d ks, (d, ks, true) ∈ s.callbacks.entries → d ∈ ins

/-- A queue entry's reference is either still absent or non-empty. -/
def prefOK (e : QueueEntry) : Prop :=
  e.persistent_ref = none ∨ ∃ b, e.persistent_ref = some b ∧ b ≠ []

/-- Every ready queue item carries a reference that is absent or non-empty. -/
def readyRefOK (s : HashIndexState) : Prop :=
  ∀ p ∈ s.queue.items, p.1 ∈ s.queue.ready → prefOK p.2.entry

/-- Every durable row carries a non-empty blob reference. -/
def storeRefOK (s : HashIndexState) : Prop :=
  ∀ r ∈ s.store, r.blob_ref ≠ []

/-- A message supplies only well-formed references: commit a non-empty one,
update_reserved an absent or non-empty one. -/
def msgRefOK : Msg → Prop
  | Msg.commit _ r => r ≠ []
  | Msg.updateReserved he => he.persistent_ref ≠ some []
  | _ => True

/-- A sample durable row used by concrete witnesses. -/
def rowSample : Row :=
  { id := 1, hash := [1], height := 0, payload := [], blob_ref := [9] }

/-- A sample state whose store holds exactly rowSample. -/
def sDurable : HashIndexState :=
  { store := [rowSample], committedLen := 1, idCounter := 1,
    queue := { items := [], ready := [] }, callbacks := { entries := [] } }

/-- A sample reserved-but-not-committed queue entry. -/
def qeSample : QueueEntry :=
  { id := 1, level := 0, payload := none, persistent_ref := none }

/-- A sample state whose queue holds digest [1] reserved under id 1. -/
def sPending : HashIndexState :=
  { store := [], committedLen := 0, idCounter := 1,
    queue := { items := [(1, { digest := [1], entry := qeSample })], ready := [] },
    callbacks := { entries := [] } }

/-- A sample hash entry with digest [1]. -/
def heSample : HashEntry :=
  { hash := [1], level := 0, payload := none, persistent_ref := none }

/-- The keys of a key-sorted association list are pairwise increasing, so the
head key is at most every key. -/
theorem sortedKeys_head_le {K V : Type} [LinearOrder K] (a : K) (b : V)
    (t : List (K × V)) (hs : sortedKeys ((a, b) :: t)) :
    ∀ p ∈ (a, b) :: t, a ≤ p.1 := by
  intro p hp
  have hpw : List.Pairwise (fun x y => x < y) (((a, b) :: t).map Prod.fst) := by
    have := (List.chain'_iff_pairwise (R := fun x y : K => x < y)).mp hs
    exact this
  rcases hp with _ | hp
  · exact le_refl a
  · rename_i hp
    have : a < p.1 := by
      have hmem : p.1 ∈ t.map Prod.fst := List.mem_map_of_mem Prod.fst hp
      simp only [List.map_cons, List.pairwise_cons] at hpw
      exact hpw.1 p.1 hmem
    exact le_of_lt this

/-- Claim C10: on a key-sorted association list (the model of a BTreeMap),
pop_min_when returns some (k, v) exactly when the map is non-empty and the
ready predicate holds of the minimum binding; in that case (k, v) is that
minimum binding and it alone is removed; otherwise the map is returned
entirely unchanged, so a ready binding with a non-minimal key is never
popped. -/
theorem c10_pop_min_when_spec {K V : Type} [LinearOrder K] [DecidableEq K]
    (m : List (K × V)) (ready : K → V → Bool) (hs : sortedKeys m) :
    (∀ k v, (pop_min_when ready m).1 = some (k, v) ↔
      (m.head? = some (k, v) ∧ ready k v = true)) ∧
    (∀ k v, (pop_min_when ready m).1 = some (k, v) →
      ((pop_min_when ready m).2 = m.tail ∧ ∀ p ∈ m, k ≤ p.1)) ∧
    ((pop_min_when ready m).1 = none → (pop_min_when ready m).2 = m) := by
  match m with
  | [] =>
    refine ⟨?_, ?_, ?_⟩
    · intro k v
      simp [pop_min_when, find_min]
    · intro k v hkv
      simp [pop_min_when, find_min] at hkv
    · intro _
      simp [pop_min_when, find_min]
  | (a, b) :: t =>
    have hremove : mapRemove ((a, b) :: t) a = t := by
      simp [mapRemove, List.eraseP_cons_of_pos]
    by_cases hr : ready a b = true
    · have hpop : pop_min_when ready ((a, b) :: t) = (some (a, b), t) := by
        simp [pop_min_when, find_min, hr, hremove]
      refine ⟨?_, ?_, ?_⟩
      · intro k v
        rw [hpop]
        constructor
        · intro hkv
          simp only [Option.some.injEq, Prod.mk.injEq] at hkv
          obtain ⟨hk, hv⟩ := hkv
          subst hk; subst hv
          exact ⟨rfl, hr⟩
        · intro hkv
          have hh := hkv.1
          simp only [List.head?_cons, Option.some.injEq, Prod.mk.injEq] at hh
          obtain ⟨hk, hv⟩ := hh
          subst hk; subst hv
          rfl
      · intro k v hkv
        rw [hpop] at hkv
        simp only [Option.some.injEq, Prod.mk.injEq] at hkv
        obtain ⟨hk, hv⟩ := hkv
        subst hk; subst hv
        refine ⟨by simp [hpop], ?_⟩
        intro p hp
        exact sortedKeys_head_le a b t hs p hp
      · intro hnone
        rw [hpop] at hnone
        simp at hnone
    · have hpop : pop_min_when ready ((a, b) :: t) = (none, (a, b) :: t) := by
        simp [pop_min_when, find_min, hr]
      refine ⟨?_, ?_, ?_⟩
      · intro k v
        rw [hpop]
        constructor
        · intro hkv
          simp at hkv
        · intro hkv
          simp at hkv
          rcases hkv with ⟨⟨hk, hv⟩, hready⟩
          rw [← hk, ← hv] at hready
          exact absurd hready hr
      · intro k v hkv
        rw [hpop] at hkv
        simp at hkv
      · intro _
        rw [hpop]

/-- Witness for C10 at a concrete sorted map: the ready minimum is popped. -/
theorem c10_witness :
    (pop_min_when (fun _ v => v) [((1 : Int), true), (2, false)]).1 = some (1, true) := by
  have h := c10_pop_min_when_spec (K := Int) (V := Bool)
    [(1, true), (2, false)] (fun _ v => v) (by simp [sortedKeys])
  exact (h.1 1 true).mpr ⟨rfl, rfl⟩

/-- Claim C4: FetchPersistentRef replies PersistentRef r when locate finds an
entry with the reference set, Retry when locate finds an entry whose
reference is absent (reserved without update or commit), and HashNotKnown
when the digest is in neither the queue nor the store; the state is
unchanged and no callback runs in every case. -/
theorem c4_fetch_persistent_ref (s : HashIndexState) (h : Bytes) (t : Bool)
    (hne : h ≠ []) :
    (∀ qe r, locate s h = some qe → qe.persistent_ref = some r →
      handle s (Msg.fetchPersistentRef h) t = some (s, Reply.persistentRef r, [])) ∧
    (∀ qe, locate s h = some qe → qe.persistent_ref = none →
      handle s (Msg.fetchPersistentRef h) t = some (s, Reply.retry, [])) ∧
    (locate s h = none →
      handle s (Msg.fetchPersistentRef h) t = some (s, Reply.hashNotKnown, [])) := by
  refine ⟨?_, ?_, ?_⟩
  · intro qe r hloc hpref
    simp [handle, hne, hloc, hpref]
  · intro qe hloc hpref
    simp [handle, hne, hloc, hpref]
  · intro hloc
    simp [handle, hne, hloc]

/-- Witness for C4: in a state with digest [1] reserved but never updated,
FetchPersistentRef replies Retry and leaves the state unchanged; in a state
where the row is durable with blob_ref [9] it replies PersistentRef [9]; on
an unknown digest it replies HashNotKnown. -/
theorem c4_witness :
    handle sPending (Msg.fetchPersistentRef [1]) false = some (sPending, Reply.retry, []) ∧
    handle sDurable (Msg.fetchPersistentRef [1]) false =
      some (sDurable, Reply.persistentRef [9], []) ∧
    handle initState (Msg.fetchPersistentRef [1]) false =
      some (initState, Reply.hashNotKnown, []) := by
  refine ⟨?_, ?_, ?_⟩
  · exact (c4_fetch_persistent_ref sPending [1] false (by decide)).2.1 qeSample
      (by decide) (by decide)
  · exact (c4_fetch_persistent_ref sDurable [1] false (by decide)).1
      { id := 1, level := 0, payload := none, persistent_ref := some [9] }
      [9] (by decide) (by decide)
  · exact (c4_fetch_persistent_ref initState [1] false (by decide)).2.2 (by decide)

/-- Claim C5: CallAfterHashIsComitted stores the callback without invoking it
and replies CallbackRegistered when the digest is queued; invokes it
synchronously and replies CallbackRegistered when the digest is durable;
and stores and invokes nothing, replying HashNotKnown, otherwise. -/
theorem c5_callback_registration (s : HashIndexState) (h : Bytes) (k : Nat) (t : Bool)
    (hne : h ≠ []) :
    ((s.queue.find_value_of_key h).isSome = true →
      handle s (Msg.callAfterHashIsComitted h k) t =
        some ({ s with callbacks := s.callbacks.add h k }, Reply.callbackRegistered, [])) ∧
    (s.queue.find_value_of_key h = none → (index_locate s h).isSome = true →
      handle s (Msg.callAfterHashIsComitted h k) t =
        some (s, Reply.callbackRegistered, [Event.fireNow k])) ∧
    (s.queue.find_value_of_key h = none → index_locate s h = none →
      handle s (Msg.callAfterHashIsComitted h k) t = some (s, Reply.hashNotKnown, [])) := by
  refine ⟨?_, ?_, ?_⟩
  · intro hq
    simp [handle, hne, register_hash_callback, hq]
  · intro hq hloc
    simp [handle, hne, register_hash_callback, hq, locate, hloc]
  · intro hq hloc
    simp [handle, hne, register_hash_callback, hq, locate, hloc]

/-- Witness for C5: registration on a pending digest stores the callback and
fires nothing; registration on a durable digest fires at once; registration
on an unknown digest replies HashNotKnown. -/
theorem c5_witness :
    handle sPending (Msg.callAfterHashIsComitted [1] 7) false =
      some ({ sPending with callbacks := { entries := [([1], [7], false)] } },
            Reply.callbackRegistered, []) ∧
    handle sDurable (Msg.callAfterHashIsComitted [1] 7) false =
      some (sDurable, Reply.callbackRegistered, [Event.fireNow 7]) ∧
    handle initState (Msg.callAfterHashIsComitted [1] 7) false =
      some (initState, Reply.hashNotKnown, []) := by
  refine ⟨?_, ?_, ?_⟩
  · have := (c5_callback_registration sPending [1] 7 false (by decide)).1 (by decide)
    rw [this]
    rfl
  · exact (c5_callback_registration sDurable [1] 7 false (by decide)).2.1
      (by decide) (by decide)
  · exact (c5_callback_registration initState [1] 7 false (by decide)).2.2
      (by decide) (by decide)

/-- Claim C8: absent and zero-length payloads collapse at the durable layer:
the drained row of an entry whose payload is none stores empty bytes, a
durable row with empty payload reads back as an absent payload, and so
FetchPayload answered from the Durable Store for such a digest replies
Payload none. -/
theorem c8_payload_collapse :
    (∀ (id : Int) (h : Bytes) (qe : QueueEntry) (pref : Bytes),
      qe.payload = none ∨ qe.payload = some [] → (mkRow id h qe pref).payload = []) ∧
    (∀ (s : HashIndexState) (h : Bytes) (r : Row),
      s.store.find? (fun row => decide (row.hash = h)) = some r → r.payload = [] →
      (index_locate s h).map (fun qe => qe.payload) = some none) ∧
    (∀ (s : HashIndexState) (h : Bytes) (r : Row) (t : Bool), h ≠ [] →
      s.queue.find_value_of_key h = none →
      s.store.find? (fun row => decide (row.hash = h)) = some r → r.payload = [] →
      handle s (Msg.fetchPayload h) t = some (s, Reply.payload none, [])) := by
  refine ⟨?_, ?_, ?_⟩
  · intro id h qe pref hpl
    rcases hpl with hpl | hpl <;> simp [mkRow, hpl]
  · intro s h r hfind hpl
    simp [index_locate, hfind, hpl]
  · intro s h r t hne hq hfind hpl
    simp [handle, hne, locate, hq, index_locate, hfind, hpl]

/-- Witness for C8: a none payload and a some-empty payload both persist as
empty bytes, and FetchPayload on a durable digest whose row has an empty
payload column replies Payload none. -/
theorem c8_witness :
    (mkRow 1 [1] qeSample [9]).payload = [] ∧
    (mkRow 1 [1] { qeSample with payload := some [] } [9]).payload = [] ∧
    handle sDurable (Msg.fetchPayload [1]) false = some (sDurable, Reply.payload none, []) := by
  refine ⟨?_, ?_, ?_⟩
  · exact c8_payload_collapse.1 1 [1] qeSample [9] (Or.inl rfl)
  · exact c8_payload_collapse.1 1 [1] { qeSample with payload := some [] } [9] (Or.inr rfl)
  · exact c8_payload_collapse.2.2 sDurable [1] rowSample false (by decide)
      (by decide) (by decide) (by decide)

/-- If locate misses, both the queue lookup and the table lookup miss. -/
theorem locate_none_parts (s : HashIndexState) (h : Bytes)
    (hloc : locate s h = none) :
    s.queue.find_item h = none ∧ index_locate s h = none := by
  unfold locate at hloc
  cases hq : s.queue.find_value_of_key h with
  | some qe => rw [hq] at hloc; exact absurd hloc (by simp)
  | none =>
    rw [hq] at hloc
    refine ⟨?_, hloc⟩
    unfold UPQ.find_value_of_key at hq
    cases hi : s.queue.find_item h with
    | some p => rw [hi] at hq; exact absurd hq (by simp)
    | none => rfl

/-- Inserting an element whose key is larger than every key of the list
appends it at the end. -/
theorem insertSorted_append (x : Int × QVal) (l : List (Int × QVal))
    (hbig : ∀ y ∈ l, y.1 < x.1) :
    insertSorted x l = l ++ [x] := by
  induction l with
  | nil => rfl
  | cons y t ih =>
    have hy : y.1 < x.1 := hbig y (by simp)
    have : ¬ x.1 ≤ y.1 := not_le.mpr hy
    simp only [insertSorted, if_neg this, List.cons_append, List.cons.injEq, true_and]
    exact ih (fun z hz => hbig z (by simp [hz]))

/-- Claim C2: Reserve of a digest already present in the queue or the store
replies HashKnown and leaves the whole state (queue, store, callback
registry, id counter) unchanged; Reserve of a digest present nowhere replies
ReserveOK and appends exactly one queue entry under the fresh id
idCounter + 1, one larger than every id the counter has issued. -/
theorem c2_reserve_frame (s : HashIndexState) (he : HashEntry) (t : Bool)
    (hne : he.hash ≠ []) :
    ((∃ qe, locate s he.hash = some qe) →
      handle s (Msg.reserve he) t = some (s, Reply.hashKnown, [])) ∧
    (locate s he.hash = none →
      (∀ i ∈ s.queue.items.map Prod.fst, i ≤ s.idCounter) →
      handle s (Msg.reserve he) false = some
        ({ s with idCounter := s.idCounter + 1,
                  queue := { s.queue with items := s.queue.items ++
                    [(s.idCounter + 1,
                      { digest := he.hash,
                        entry := { id := s.idCounter + 1, level := he.level,
                                   payload := he.payload,
                                   persistent_ref := he.persistent_ref } })] } },
         Reply.reserveOK, [Event.reserved (s.idCounter + 1)]) ∧
      (s.idCounter + 1) ∉ s.queue.items.map Prod.fst) := by
  constructor
  · rintro ⟨qe, hloc⟩
    simp [handle, hne, hloc]
  · intro hloc hbound
    have hparts := locate_none_parts s he.hash hloc
    have hfresh : (s.idCounter + 1) ∉ s.queue.items.map Prod.fst := by
      intro hmem
      have := hbound _ hmem
      omega
    refine ⟨?_, hfresh⟩
    have hins : insertSorted
        (s.idCounter + 1,
         { digest := he.hash,
           entry := { id := s.idCounter + 1, level := he.level,
                      payload := he.payload,
                      persistent_ref := he.persistent_ref } }) s.queue.items =
        s.queue.items ++
        [(s.idCounter + 1,
          { digest := he.hash,
            entry := { id := s.idCounter + 1, level := he.level,
                       payload := he.payload,
                       persistent_ref := he.persistent_ref } })] := by
      apply insertSorted_append
      intro y hy
      have : y.1 ∈ s.queue.items.map Prod.fst := List.mem_map_of_mem Prod.fst hy
      have := hbound _ this
      omega
    simp [handle, hne, hloc, reserve, maybe_flush, UPQ.reserve_put, hparts.1, hins]

/-- Witness for C2: on sPending a repeated Reserve of digest [1] replies
HashKnown and changes nothing; on the empty initial state Reserve of [1]
replies ReserveOK and appends the single queue entry under fresh id 1. -/
theorem c2_witness :
    handle sPending (Msg.reserve heSample) false = some (sPending, Reply.hashKnown, []) ∧
    handle initState (Msg.reserve heSample) false = some
      ({ initState with idCounter := 1,
                        queue := { items := [(1, { digest := [1], entry := qeSample })],
                                   ready := [] } },
       Reply.reserveOK, [Event.reserved 1]) := by
  constructor
  · exact (c2_reserve_frame sPending heSample false (by decide)).1 ⟨qeSample, by decide⟩
  · have h := (c2_reserve_frame initState heSample false (by decide)).2
      (by decide) (by intro i hi; simp [initState] at hi)
    have := h.1
    rw [this]
    rfl


/-- A successful pop_min_when popped exactly the ready head of the map. -/
theorem pop_min_when_some {K V : Type} [DecidableEq K] (ready : K → V → Bool)
    (m : List (K × V)) (kv : K × V) (rest : List (K × V))
    (h : pop_min_when ready m = (some kv, rest)) :
    m = kv :: rest ∧ ready kv.1 kv.2 = true := by
  cases m with
  | nil => simp [pop_min_when, find_min] at h
  | cons a t =>
    by_cases hr : ready a.1 a.2 = true
    · have hpop : pop_min_when ready (a :: t) = (some a, t) := by
        simp [pop_min_when, find_min, hr, mapRemove, List.eraseP_cons_of_pos]
      rw [hpop] at h
      simp only [Prod.mk.injEq, Option.some.injEq] at h
      obtain ⟨h1, h2⟩ := h
      subst h1; subst h2
      exact ⟨rfl, hr⟩
    · have hpop : pop_min_when ready (a :: t) = (none, a :: t) := by
        simp [pop_min_when, find_min, hr]
      rw [hpop] at h
      simp at h

/-- An unsuccessful pop_min_when leaves the map unchanged. -/
theorem pop_min_when_none {K V : Type} [DecidableEq K] (ready : K → V → Bool)
    (m : List (K × V)) (rest : List (K × V))
    (h : pop_min_when ready m = (none, rest)) : rest = m := by
  cases m with
  | nil =>
    simp only [pop_min_when, find_min, List.head?_nil] at h
    simp only [Prod.mk.injEq] at h
    exact h.2.symm
  | cons a t =>
    by_cases hr : ready a.1 a.2 = true
    · have hpop : pop_min_when ready (a :: t) = (some a, t) := by
        simp [pop_min_when, find_min, hr, mapRemove, List.eraseP_cons_of_pos]
      rw [hpop] at h
      simp at h
    · have hpop : pop_min_when ready (a :: t) = (none, a :: t) := by
        simp [pop_min_when, find_min, hr]
      rw [hpop] at h
      simp only [Prod.mk.injEq] at h
      exact h.2.symm

/-- A successful pop removes exactly the head item and keeps the ready set:
the popped item was the head, it was ready, and the rest is the tail. -/
theorem pop_some_shape (q : UPQ) (id : Int) (v : QVal) (q' : UPQ)
    (h : q.pop_min_if_complete = (some (id, v), q')) :
    q.items = (id, v) :: q'.items ∧ q'.ready = q.ready ∧ id ∈ q.ready := by
  unfold UPQ.pop_min_if_complete at h
  cases hp : pop_min_when (fun i _ => decide (i ∈ q.ready)) q.items with
  | mk popped rest =>
    rw [hp] at h
    cases popped with
    | none => simp at h
    | some kv =>
      simp only [Prod.mk.injEq, Option.some.injEq] at h
      obtain ⟨hkv, hq'⟩ := h
      subst hkv
      obtain ⟨hm, hr⟩ := pop_min_when_some _ _ _ _ hp
      refine ⟨?_, ?_, ?_⟩
      · rw [hm, ← hq']
      · rw [← hq']
      · exact of_decide_eq_true hr

/-- An unsuccessful pop returns the queue unchanged. -/
theorem pop_none_shape (q : UPQ) (q2 : UPQ)
    (h : q.pop_min_if_complete = (none, q2)) : q2 = q := by
  unfold UPQ.pop_min_if_complete at h
  cases hp : pop_min_when (fun i _ => decide (i ∈ q.ready)) q.items with
  | mk popped rest =>
    rw [hp] at h
    cases popped with
    | none =>
      simp only [Prod.mk.injEq] at h
      exact h.2.symm
    | some kv => simp at h

/-- Draining never changes the ready set, id counter or committed length. -/
theorem drain_frame : ∀ (fuel : Nat) (s s' : HashIndexState) (evs : List Event),
    insert_completed_in_order fuel s = some (s', evs) →
    s'.queue.ready = s.queue.ready ∧ s'.idCounter = s.idCounter ∧
    s'.committedLen = s.committedLen := by
  intro fuel
  induction fuel with
  | zero =>
    intro s s' evs h
    simp only [insert_completed_in_order, Option.some.injEq, Prod.mk.injEq] at h
    obtain ⟨h1, _⟩ := h
    subst h1
    exact ⟨rfl, rfl, rfl⟩
  | succ n ih =>
    intro s s' evs h
    simp only [insert_completed_in_order] at h
    split at h
    · simp only [Option.some.injEq, Prod.mk.injEq] at h
      obtain ⟨h1, _⟩ := h
      subst h1
      exact ⟨rfl, rfl, rfl⟩
    · rename_i id v q' heq
      split at h
      · cases h
      · rename_i pref hpref
        split at h
        · cases h
        · rename_i hdup
          split at h
          · cases h
          · rename_i s2 evs2 hrec
            simp only [Option.some.injEq, Prod.mk.injEq] at h
            obtain ⟨h1, _⟩ := h
            subst h1
            have hmid := ih _ _ _ hrec
            have hshape := pop_some_shape s.queue id v q' heq
            simp only at hmid
            exact ⟨by rw [hmid.1, hshape.2.1], hmid.2.1, hmid.2.2⟩

/-- Draining only appends rows to the store. -/
theorem drain_store_mono : ∀ (fuel : Nat) (s s' : HashIndexState) (evs : List Event),
    insert_completed_in_order fuel s = some (s', evs) →
    ∃ added, s'.store = s.store ++ added := by
  intro fuel
  induction fuel with
  | zero =>
    intro s s' evs h
    simp only [insert_completed_in_order, Option.some.injEq, Prod.mk.injEq] at h
    obtain ⟨h1, _⟩ := h
    subst h1
    exact ⟨[], by simp⟩
  | succ n ih =>
    intro s s' evs h
    simp only [insert_completed_in_order] at h
    split at h
    · simp only [Option.some.injEq, Prod.mk.injEq] at h
      obtain ⟨h1, _⟩ := h
      subst h1
      exact ⟨[], by simp⟩
    · rename_i id v q' heq
      split at h
      · cases h
      · rename_i pref hpref
        split at h
        · cases h
        · rename_i hdup
          split at h
          · cases h
          · rename_i s2 evs2 hrec
            simp only [Option.some.injEq, Prod.mk.injEq] at h
            obtain ⟨h1, _⟩ := h
            subst h1
            obtain ⟨added, hadded⟩ := ih _ _ _ hrec
            simp only at hadded
            exact ⟨mkRow id v.digest v.entry pref :: added, by rw [hadded]; simp⟩

/-- update_value keeps the key, the digest and (when f preserves it) the id of
every item, and changes only the entry stored under the digest. -/
theorem update_value_find_item (q : UPQ) (d : Bytes) (f : QueueEntry → QueueEntry) :
    (q.update_value d f).find_item d =
      (q.find_item d).map (fun p => (p.1, { digest := p.2.digest, entry := f p.2.entry })) := by
  unfold UPQ.update_value UPQ.find_item
  simp only
  induction q.items with
  | nil => rfl
  | cons a t ih =>
    by_cases ha : a.2.digest = d
    · simp [List.find?_cons, ha]
    · simp only [List.map_cons, if_neg ha, List.find?_cons, decide_eq_false ha]
      exact ih

/-- update_value does not change the list of keys. -/
theorem update_value_fst (q : UPQ) (d : Bytes) (f : QueueEntry → QueueEntry) :
    (q.update_value d f).items.map Prod.fst = q.items.map Prod.fst := by
  unfold UPQ.update_value
  simp only [List.map_map]
  apply List.map_congr_left
  intro p _
  by_cases hc : p.2.digest = d <;> simp [hc]

/-- update_value does not change the list of digests. -/
theorem update_value_digests (q : UPQ) (d : Bytes) (f : QueueEntry → QueueEntry) :
    (q.update_value d f).items.map (fun x => x.2.digest) = q.items.map (fun x => x.2.digest) := by
  unfold UPQ.update_value
  simp only [List.map_map]
  apply List.map_congr_left
  intro p _
  by_cases hc : p.2.digest = d <;> simp [hc]

/-- update_value does not change the ready set. -/
theorem update_value_ready (q : UPQ) (d : Bytes) (f : QueueEntry → QueueEntry) :
    (q.update_value d f).ready = q.ready := rfl

/-- set_ready does not change the items. -/
theorem set_ready_items (q : UPQ) (i : Int) : (q.set_ready i).items = q.items := by
  unfold UPQ.set_ready
  split <;> rfl

/-- set_ready marks the id ready. -/
theorem set_ready_mem (q : UPQ) (i : Int) : i ∈ (q.set_ready i).ready := by
  unfold UPQ.set_ready
  split
  · assumption
  · exact List.mem_cons_self i q.ready

/-- set_ready keeps previously ready ids ready. -/
theorem set_ready_mono (q : UPQ) (i j : Int) (hj : j ∈ q.ready) :
    j ∈ (q.set_ready i).ready := by
  unfold UPQ.set_ready
  split
  · exact hj
  · exact List.mem_cons_of_mem i hj

/-- Through draining, an entry holding a reference r either keeps its item
unchanged in the queue or surfaces as a store row carrying r as blob_ref. -/
theorem drain_digest_track : ∀ (fuel : Nat) (s : HashIndexState) (h : Bytes)
    (p : Int × QVal) (r : Bytes) (s' : HashIndexState) (evs : List Event),
    s.queue.find_item h = some p →
    p.2.entry.persistent_ref = some r →
    insert_completed_in_order fuel s = some (s', evs) →
    (∃ row ∈ s'.store, row.hash = h ∧ row.blob_ref = r) ∨
    s'.queue.find_item h = some p := by
  intro fuel
  induction fuel with
  | zero =>
    intro s h p r s' evs hfind hpref hdrain
    simp only [insert_completed_in_order, Option.some.injEq, Prod.mk.injEq] at hdrain
    obtain ⟨h1, _⟩ := hdrain
    subst h1
    exact Or.inr hfind
  | succ n ih =>
    intro s h p r s' evs hfind hpref hdrain
    simp only [insert_completed_in_order] at hdrain
    split at hdrain
    · simp only [Option.some.injEq, Prod.mk.injEq] at hdrain
      obtain ⟨h1, _⟩ := hdrain
      subst h1
      exact Or.inr hfind
    · rename_i id v q' heq
      split at hdrain
      · cases hdrain
      · rename_i pref hpref0
        split at hdrain
        · cases hdrain
        · rename_i hdup
          split at hdrain
          · cases hdrain
          · rename_i s2 evs2 hrec
            simp only [Option.some.injEq, Prod.mk.injEq] at hdrain
            obtain ⟨h1, _⟩ := hdrain
            subst h1
            have hshape := pop_some_shape s.queue id v q' heq
            by_cases hv : v.digest = h
            · have hphead : p = (id, v) := by
                unfold UPQ.find_item at hfind
                rw [hshape.1] at hfind
                simp [List.find?_cons, hv] at hfind
                exact hfind.symm
              have hprefr : pref = r := by
                rw [hphead] at hpref
                simp only at hpref
                rw [hpref0] at hpref
                exact Option.some.injEq .. ▸ hpref
              obtain ⟨added, hadded⟩ := drain_store_mono n _ _ _ hrec
              left
              refine ⟨mkRow id v.digest v.entry pref, ?_, by simp [mkRow, hv], by simp [mkRow, hprefr]⟩
              rw [hadded]
              simp only at hadded ⊢
              have : mkRow id v.digest v.entry pref ∈
                  s.store ++ [mkRow id v.digest v.entry pref] := by simp
              exact List.mem_append_left added this
            · have hfind2 : q'.find_item h = some p := by
                unfold UPQ.find_item at hfind ⊢
                rw [hshape.1] at hfind
                simp only [List.find?_cons, decide_eq_false hv] at hfind
                exact hfind
              have := ih _ h p r _ _ (by simpa using hfind2) hpref hrec
              simpa using this

/-- set_ready does not change digest lookup. -/
theorem set_ready_find_item (q : UPQ) (i : Int) (d : Bytes) :
    (q.set_ready i).find_item d = q.find_item d := by
  unfold UPQ.find_item
  rw [set_ready_items]

/-- maybe_flush changes neither the store nor the queue. -/
theorem maybe_flush_frame (s : HashIndexState) (t : Bool) :
    (maybe_flush s t).1.store = s.store ∧ (maybe_flush s t).1.queue = s.queue := by
  cases t <;> simp [maybe_flush, flush]

/-- Claim C6: Commit of a digest known nowhere is fatal (the index terminates
with a MalformedRequest instead of replying); Commit of a queued digest
stores blob_ref as the entry's persistent_ref, marks it ready and drains,
and always replies CommitOK, so that afterwards the digest either sits in
the store with blob_ref as its reference or sits in the queue, ready, with
persistent_ref set to blob_ref. -/
theorem c6_commit (s : HashIndexState) (h r : Bytes) (t : Bool) (hne : h ≠ []) :
    (locate s h = none → handle s (Msg.commit h r) t = none) ∧
    (∀ p s' rep evs, s.queue.find_item h = some p →
      handle s (Msg.commit h r) t = some (s', rep, evs) →
      rep = Reply.commitOK ∧
      ((∃ row ∈ s'.store, row.hash = h ∧ row.blob_ref = r) ∨
       (∃ p', s'.queue.find_item h = some p' ∧
          p'.2.entry.persistent_ref = some r ∧ p'.2.entry.id ∈ s'.queue.ready))) := by
  constructor
  · intro hloc
    simp [handle, hne, commit, hloc]
  · intro p s' rep evs hfind hhandle
    have hloc : locate s h = some p.2.entry := by
      simp [locate, UPQ.find_value_of_key, hfind]
    have hkey : s.queue.find_key h = some p.1 := by
      simp [UPQ.find_key, hfind]
    simp only [handle, if_neg hne] at hhandle
    split at hhandle
    · cases hhandle
    · rename_i s2 evs0 hc
      simp only [Option.some.injEq, Prod.mk.injEq] at hhandle
      obtain ⟨hs2, hrep, hevs⟩ := hhandle
      refine ⟨hrep.symm, ?_⟩
      simp only [commit, hloc, hkey] at hc
      split at hc
      · cases hc
      · rename_i s3 evs3 hrec
        simp only [Option.some.injEq, Prod.mk.injEq] at hc
        obtain ⟨hs3, _⟩ := hc
        have hfind1 : ((s.queue.update_value h (fun old =>
            { old with persistent_ref := some r })).set_ready p.2.entry.id).find_item h =
            some (p.1, { digest := p.2.digest,
                         entry := { p.2.entry with persistent_ref := some r } }) := by
          rw [set_ready_find_item, update_value_find_item, hfind]
          rfl
        have htrack := drain_digest_track _ _ h
          (p.1, { digest := p.2.digest, entry := { p.2.entry with persistent_ref := some r } })
          r _ _ (by simpa using hfind1) rfl hrec
        have hready1 : p.2.entry.id ∈
            ((s.queue.update_value h (fun old =>
              { old with persistent_ref := some r })).set_ready p.2.entry.id).ready :=
          set_ready_mem _ _
        have hframe := drain_frame _ _ _ _ hrec
        have hmf := maybe_flush_frame s3 t
        subst hs2
        rw [← hs3]
        rcases htrack with ⟨row, hrow, hrh, hrb⟩ | hq
        · left
          exact ⟨row, by rw [hmf.1]; exact hrow, hrh, hrb⟩
        · right
          refine ⟨(p.1, { digest := p.2.digest,
                          entry := { p.2.entry with persistent_ref := some r } }), ?_, rfl, ?_⟩
          · unfold UPQ.find_item at hq ⊢
            rw [hmf.2]
            exact hq
          · simp only
            rw [hmf.2]
            rw [hframe.1]
            simpa using hready1

/-- Witness for C6: Commit of an unknown digest on the fresh index is fatal;
Commit of the queued digest [1] with blob_ref [9] on sPending replies
CommitOK and leaves the digest durable with blob_ref [9]. -/
theorem c6_witness :
    handle initState (Msg.commit [1] [9]) false = none ∧
    ((∃ row ∈ ({ store := [{ id := 1, hash := [1], height := 0, payload := [],
                             blob_ref := [9] }],
                 committedLen := 0, idCounter := 1,
                 queue := { items := [], ready := [1] },
                 callbacks := { entries := [] } } : HashIndexState).store,
        row.hash = [1] ∧ row.blob_ref = [9]) ∨
     (∃ p', ({ store := [{ id := 1, hash := [1], height := 0, payload := [],
                           blob_ref := [9] }],
               committedLen := 0, idCounter := 1,
               queue := { items := [], ready := [1] },
               callbacks := { entries := [] } } : HashIndexState).queue.find_item [1] =
            some p' ∧ p'.2.entry.persistent_ref = some [9] ∧
            p'.2.entry.id ∈ ({ store := [{ id := 1, hash := [1], height := 0, payload := [],
                                           blob_ref := [9] }],
                               committedLen := 0, idCounter := 1,
                               queue := { items := [], ready := [1] },
                               callbacks := { entries := [] } } : HashIndexState).queue.ready)) := by
  constructor
  · exact (c6_commit initState [1] [9] false (by decide)).1 (by decide)
  · exact ((c6_commit sPending [1] [9] false (by decide)).2
      (1, { digest := [1], entry := qeSample })
      { store := [{ id := 1, hash := [1], height := 0, payload := [], blob_ref := [9] }],
        committedLen := 0, idCounter := 1,
        queue := { items := [], ready := [1] },
        callbacks := { entries := [] } }
      Reply.commitOK [Event.insertRow 1 [1]] (by decide) (by decide)).2

/-- idRange of length n+1 starts with a. -/
theorem idRange_succ (a : Int) (n : Nat) :
    idRange a (n + 1) = a :: idRange (a + 1) n := by
  unfold idRange
  rw [List.range_succ_eq_map]
  simp only [List.map_cons, List.map_map, Nat.cast_zero, add_zero]
  congr 1
  apply List.map_congr_left
  intro i _
  simp only [Function.comp_apply, Nat.succ_eq_add_one]
  push_cast
  ring

/-- idRange of length n+1 ends with a + n. -/
theorem idRange_snoc (a : Int) (n : Nat) :
    idRange a (n + 1) = idRange a n ++ [a + n] := by
  unfold idRange
  rw [List.range_succ]
  simp

/-- Membership in idRange is the interval condition. -/
theorem mem_idRange (a : Int) (n : Nat) (x : Int) :
    x ∈ idRange a n ↔ a ≤ x ∧ x < a + n := by
  unfold idRange
  simp only [List.mem_map, List.mem_range]
  constructor
  · rintro ⟨i, hi, rfl⟩
    omega
  · rintro ⟨h1, h2⟩
    refine ⟨(x - a).toNat, by omega, by omega⟩

/-- idRange splits along a sum of lengths. -/
theorem idRange_add (a : Int) (m n : Nat) :
    idRange a (m + n) = idRange a m ++ idRange (a + m) n := by
  induction n with
  | zero => simp [idRange]
  | succ j ih =>
    have h1 : m + (j + 1) = (m + j) + 1 := by omega
    rw [h1, idRange_snoc, ih, idRange_snoc, List.append_assoc]
    have h2 : a + ((m + j : Nat) : Int) = (a + m) + j := by push_cast; ring
    rw [h2]

/-- idRange is strictly increasing. -/
theorem idRange_chain (a : Int) (n : Nat) :
    List.Chain' (fun x y => x < y) (idRange a n) := by
  have hp : List.Pairwise (fun x y : Nat => x < y) (List.range n) := List.pairwise_lt_range n
  have hp2 : List.Pairwise (fun x y : Int => x < y) (idRange a n) := by
    unfold idRange
    refine List.Pairwise.map _ ?_ hp
    intro i j hij
    omega
  exact hp2.chain'

/-- idRange has no duplicates. -/
theorem idRange_nodup (a : Int) (n : Nat) : (idRange a n).Nodup := by
  have := (List.chain'_iff_pairwise).mp (idRange_chain a n)
  exact this.imp (fun h => ne_of_lt h)

/-- Every fired callback event is a fireFlush event. -/
theorem firedEvents_shape (c : CallbackContainer) :
    ∀ e ∈ c.firedEvents, ∃ d k, e = Event.fireFlush d k := by
  intro e he
  unfold CallbackContainer.firedEvents at he
  simp only [List.mem_flatMap, List.mem_filter, List.mem_map] at he
  obtain ⟨x, hx, k, hk, rfl⟩ := he
  exact ⟨x.1, k, rfl⟩

/-- Fired callback events carry no inserted or reserved ids. -/
theorem firedEvents_ids (c : CallbackContainer) :
    insertedIds c.firedEvents = [] ∧ reservedIds c.firedEvents = [] := by
  constructor <;>
  · apply List.filterMap_eq_nil_iff.mpr
    intro e he
    obtain ⟨d, k, rfl⟩ := firedEvents_shape c e he
    rfl

/-- maybe_flush keeps store, queue and counter, and its events carry no
inserted or reserved ids. -/
theorem maybe_flush_ids (s : HashIndexState) (t : Bool) :
    insertedIds (maybe_flush s t).2 = [] ∧ reservedIds (maybe_flush s t).2 = [] ∧
    (maybe_flush s t).1.store = s.store ∧ (maybe_flush s t).1.queue = s.queue ∧
    (maybe_flush s t).1.idCounter = s.idCounter := by
  cases t
  · simp [maybe_flush, insertedIds, reservedIds]
  · refine ⟨?_, ?_, rfl, rfl, rfl⟩
    · show insertedIds (Event.dbCommit :: s.callbacks.firedEvents) = []
      simp only [insertedIds, List.filterMap_cons]
      exact (firedEvents_ids s.callbacks).1
    · show reservedIds (Event.dbCommit :: s.callbacks.firedEvents) = []
      simp only [reservedIds, List.filterMap_cons]
      exact (firedEvents_ids s.callbacks).2

/-- Newly ready ids come from set_ready or were ready before. -/
theorem set_ready_sub (q : UPQ) (i j : Int) (hj : j ∈ (q.set_ready i).ready) :
    j = i ∨ j ∈ q.ready := by
  unfold UPQ.set_ready at hj
  split at hj
  · exact Or.inr hj
  · rw [List.mem_cons] at hj
    exact hj

/-- update_value with an id-preserving function keeps every item storing its
own id. -/
theorem update_value_keyid (q : UPQ) (d : Bytes) (f : QueueEntry → QueueEntry)
    (hf : ∀ e, (f e).id = e.id) (hk : ∀ p ∈ q.items, p.1 = p.2.entry.id) :
    ∀ p ∈ (q.update_value d f).items, p.1 = p.2.entry.id := by
  intro p hp
  unfold UPQ.update_value at hp
  simp only [List.mem_map] at hp
  obtain ⟨x, hx, hxe⟩ := hp
  by_cases hc : x.2.digest = d
  · rw [if_pos hc] at hxe
    rw [← hxe]
    simp only [hf]
    exact hk x hx
  · rw [if_neg hc] at hxe
    rw [← hxe]
    exact hk x hx

/-- Shape preservation through the drain loop: if the store holds ids 1..k
and the queue holds ids k+1..k+q, draining moves some first j of the queue
ids to the store in order, emitting exactly those ids as insertions. -/
theorem drain_shape : ∀ (fuel : Nat) (s : HashIndexState) (k q : Nat)
    (s' : HashIndexState) (evs : List Event),
    s.store.map Row.id = idRange 1 k →
    s.queue.items.map Prod.fst = idRange ((k : Int) + 1) q →
    (∀ p ∈ s.queue.items, p.1 = p.2.entry.id) →
    insert_completed_in_order fuel s = some (s', evs) →
    ∃ j : Nat, j ≤ q ∧
      s'.store.map Row.id = idRange 1 (k + j) ∧
      s'.queue.items.map Prod.fst = idRange ((k : Int) + 1 + j) (q - j) ∧
      (∀ p ∈ s'.queue.items, p.1 = p.2.entry.id) ∧
      insertedIds evs = idRange ((k : Int) + 1) j ∧
      reservedIds evs = [] := by
  intro fuel
  induction fuel with
  | zero =>
    intro s k q s' evs hst hqu hkey h
    simp only [insert_completed_in_order, Option.some.injEq, Prod.mk.injEq] at h
    obtain ⟨h1, h2⟩ := h
    subst h1
    subst h2
    exact ⟨0, by omega, by simpa using hst, by simpa using hqu, hkey,
      by simp [insertedIds, idRange], by simp [reservedIds]⟩
  | succ n ih =>
    intro s k q s' evs hst hqu hkey h
    simp only [insert_completed_in_order] at h
    split at h
    · simp only [Option.some.injEq, Prod.mk.injEq] at h
      obtain ⟨h1, h2⟩ := h
      subst h1
      subst h2
      exact ⟨0, by omega, by simpa using hst, by simpa using hqu, hkey,
        by simp [insertedIds, idRange], by simp [reservedIds]⟩
    · rename_i id v q' heq
      split at h
      · cases h
      · rename_i pref hpref
        split at h
        · cases h
        · rename_i hdup
          split at h
          · cases h
          · rename_i s2 evs2 hrec
            simp only [Option.some.injEq, Prod.mk.injEq] at h
            obtain ⟨h1, h2⟩ := h
            subst h1
            subst h2
            have hshape := pop_some_shape s.queue id v q' heq
            cases q with
            | zero =>
              rw [hshape.1] at hqu
              simp [idRange] at hqu
            | succ q0 =>
              rw [hshape.1, idRange_succ] at hqu
              simp only [List.map_cons, List.cons.injEq] at hqu
              obtain ⟨hid, hqtail⟩ := hqu
              have hstMid : (s.store ++ [mkRow id v.digest v.entry pref]).map Row.id =
                  idRange 1 (k + 1) := by
                rw [List.map_append, hst, idRange_snoc]
                simp only [List.map_cons, List.map_nil, mkRow]
                rw [hid]
                have : (1 : Int) + (k : Int) = (k : Int) + 1 := by ring
                rw [this]
              have hcast : ((k + 1 : Nat) : Int) + 1 = (k : Int) + 1 + 1 := by push_cast; ring
              have hquMid : q'.items.map Prod.fst = idRange (((k + 1 : Nat) : Int) + 1) q0 := by
                rw [hcast]
                exact hqtail
              have hkeyMid : ∀ p ∈ q'.items, p.1 = p.2.entry.id := by
                intro p hp
                exact hkey p (by rw [hshape.1]; exact List.mem_cons_of_mem _ hp)
              obtain ⟨j0, hj0, hst', hqu', hkey', hins', hres'⟩ :=
                ih _ (k + 1) q0 _ _ hstMid hquMid hkeyMid hrec
              refine ⟨j0 + 1, by omega, ?_, ?_, hkey', ?_, ?_⟩
              · have : k + 1 + j0 = k + (j0 + 1) := by omega
                rw [← this]
                exact hst'
              · have hn : q0 - j0 = (q0 + 1) - (j0 + 1) := by omega
                have hi : ((k + 1 : Nat) : Int) + 1 + (j0 : Int) =
                    (k : Int) + 1 + ((j0 + 1 : Nat) : Int) := by push_cast; ring
                rw [← hn, ← hi]
                exact hqu'
              · simp only [insertedIds, List.filterMap_cons] at hins' ⊢
                rw [idRange_succ]
                simp only [List.cons.injEq]
                refine ⟨hid, ?_⟩
                have hi : ((k + 1 : Nat) : Int) + 1 = (k : Int) + 1 + 1 := by push_cast; ring
                rw [hi] at hins'
                exact hins'
              · simp only [reservedIds, List.filterMap_cons] at hres' ⊢
                exact hres'

/-- insertedIds distributes over append. -/
theorem insertedIds_append (a b : List Event) :
    insertedIds (a ++ b) = insertedIds a ++ insertedIds b := by
  unfold insertedIds
  exact List.filterMap_append a b _

/-- reservedIds distributes over append. -/
theorem reservedIds_append (a b : List Event) :
    reservedIds (a ++ b) = reservedIds a ++ reservedIds b := by
  unfold reservedIds
  exact List.filterMap_append a b _

/-- StateShape only looks at store, queue and counter. -/
theorem stateShape_of_fields (s s' : HashIndexState) (k q : Nat)
    (hS : StateShape s k q) (h1 : s'.store = s.store) (h2 : s'.queue = s.queue)
    (h3 : s'.idCounter = s.idCounter) : StateShape s' k q := by
  obtain ⟨hctr, hst, hqu, hkey, hrb⟩ := hS
  refine ⟨by rw [h3]; exact hctr, by rw [h1]; exact hst, by rw [h2]; exact hqu,
    by rw [h2]; exact hkey, ?_⟩
  intro i hi
  rw [h3]
  exact hrb i (by rw [← h2]; exact hi)

/-- A successful reserve keeps the store, issues the id counter + 1, appends
one queue item under it, and emits exactly that reservation event. -/
theorem reserve_shape (s : HashIndexState) (he : HashEntry) (t : Bool) (k q : Nat)
    (hS : StateShape s k q) (s2 : HashIndexState) (evs2 : List Event)
    (hr : reserve s he t = some (s2, evs2)) :
    StateShape s2 k (q + 1) ∧ insertedIds evs2 = [] ∧
    reservedIds evs2 = [(k : Int) + (q : Int) + 1] := by
  obtain ⟨hctr, hst, hqu, hkey, hrb⟩ := hS
  have mf := maybe_flush_ids s t
  simp only [reserve] at hr
  rw [mf.2.2.2.1, mf.2.2.2.2] at hr
  split at hr
  · cases hr
  · rename_i q2 hput
    simp only [Option.some.injEq, Prod.mk.injEq] at hr
    obtain ⟨hs2, hevs⟩ := hr
    unfold UPQ.reserve_put at hput
    split at hput
    · cases hput
    · simp only [Option.some.injEq] at hput
      have hbig : ∀ y ∈ s.queue.items, y.1 < s.idCounter + 1 := by
        intro y hy
        have hmem : y.1 ∈ s.queue.items.map Prod.fst := List.mem_map_of_mem Prod.fst hy
        rw [hqu] at hmem
        rw [mem_idRange] at hmem
        omega
      have hins : insertSorted
          (s.idCounter + 1,
           { digest := he.hash,
             entry := { id := s.idCounter + 1, level := he.level,
                        payload := he.payload, persistent_ref := he.persistent_ref } })
          s.queue.items =
          s.queue.items ++
          [(s.idCounter + 1,
            { digest := he.hash,
              entry := { id := s.idCounter + 1, level := he.level,
                         payload := he.payload, persistent_ref := he.persistent_ref } })] :=
        insertSorted_append _ _ (fun y hy => hbig y hy)
      refine ⟨⟨?_, ?_, ?_, ?_, ?_⟩, ?_, ?_⟩
      · rw [← hs2]
        simp only [hctr]
        push_cast
        ring
      · rw [← hs2]
        simp only [mf.2.2.1]
        exact hst
      · rw [← hs2]
        simp only
        rw [← hput]
        simp only [hins, List.map_append, hqu, List.map_cons, List.map_nil]
        rw [idRange_snoc]
        have : (k : Int) + 1 + (q : Int) = s.idCounter + 1 := by rw [hctr]; ring
        rw [this]
      · rw [← hs2]
        simp only
        rw [← hput]
        simp only [hins]
        intro p hp
        rcases List.mem_append.mp hp with hp | hp
        · exact hkey p hp
        · simp only [List.mem_singleton] at hp
          rw [hp]
      · rw [← hs2]
        simp only
        intro i hi
        rw [← hput] at hi
        simp only at hi
        have := hrb i hi
        omega
      · rw [← hevs, insertedIds_append, mf.1]
        simp [insertedIds]
      · rw [← hevs, reservedIds_append, mf.2.1]
        simp only [List.nil_append, reservedIds, List.filterMap_cons, List.filterMap_nil]
        rw [hctr]

/-- update_reserved keeps the whole shape: ids, store and counter are
untouched and only a queue entry's non-id fields may change. -/
theorem update_reserved_shape (s : HashIndexState) (he : HashEntry) (k q : Nat)
    (hS : StateShape s k q) (s2 : HashIndexState)
    (hu : update_reserved s he = some s2) : StateShape s2 k q := by
  obtain ⟨hctr, hst, hqu, hkey, hrb⟩ := hS
  simp only [update_reserved] at hu
  split at hu
  · cases hu
  · rename_i old hloc
    split at hu
    · simp only [Option.some.injEq] at hu
      subst hu
      exact ⟨hctr, hst, hqu, hkey, hrb⟩
    · rename_i id hkeyq
      split at hu
      · simp only [Option.some.injEq] at hu
        subst hu
        refine ⟨hctr, hst, ?_, ?_, hrb⟩
        · simp only
          rw [update_value_fst]
          exact hqu
        · simp only
          exact update_value_keyid _ _ _ (fun e => rfl) hkey
      · cases hu

/-- A successful commit keeps the counter and drains some prefix j of the
queue into the store, emitting exactly those insertions. -/
theorem commit_shape (s : HashIndexState) (h r : Bytes) (t : Bool) (k q : Nat)
    (hS : StateShape s k q) (s2 : HashIndexState) (evs2 : List Event)
    (hc : commit s h r t = some (s2, evs2)) :
    ∃ j, j ≤ q ∧ StateShape s2 (k + j) (q - j) ∧
      insertedIds evs2 = idRange ((k : Int) + 1) j ∧ reservedIds evs2 = [] := by
  obtain ⟨hctr, hst, hqu, hkey, hrb⟩ := hS
  simp only [commit] at hc
  split at hc
  · cases hc
  · rename_i qe hloc
    split at hc
    · cases hc
    · rename_i key hkeyq
      split at hc
      · cases hc
      · rename_i s3 evs3 hdrain
        simp only [Option.some.injEq, Prod.mk.injEq] at hc
        obtain ⟨hc1, hc2⟩ := hc
        have hquU : ((s.queue.update_value h (fun old =>
            { old with persistent_ref := some r })).set_ready qe.id).items.map Prod.fst =
            idRange ((k : Int) + 1) q := by
          rw [set_ready_items, update_value_fst]
          exact hqu
        have hkeyU : ∀ p ∈ ((s.queue.update_value h (fun old =>
            { old with persistent_ref := some r })).set_ready qe.id).items,
            p.1 = p.2.entry.id := by
          rw [set_ready_items]
          exact update_value_keyid _ _ _ (fun e => rfl) hkey
        obtain ⟨j, hj, hst3, hqu3, hkey3, hins3, hres3⟩ :=
          drain_shape _
            { s with queue := (s.queue.update_value h (fun old =>
                { old with persistent_ref := some r })).set_ready qe.id }
            k q _ _ hst hquU hkeyU hdrain
        have hframe := drain_frame _ _ _ _ hdrain
        have mf := maybe_flush_ids s3 t
        -- the id set ready is a queue id, hence bounded by the counter
        have hqeid : qe.id ≤ s.idCounter := by
          cases hfi : s.queue.find_item h with
          | none => rw [UPQ.find_key, hfi] at hkeyq; cases hkeyq
          | some p =>
            have hleq : locate s h = some p.2.entry := by
              simp [locate, UPQ.find_value_of_key, hfi]
            rw [hleq] at hloc
            have hqe : qe = p.2.entry := by
              simp only [Option.some.injEq] at hloc
              exact hloc.symm
            have hpmem : p ∈ s.queue.items := List.mem_of_find?_eq_some hfi
            have hp1 : p.1 = p.2.entry.id := hkey p hpmem
            have hmem : p.1 ∈ s.queue.items.map Prod.fst := List.mem_map_of_mem Prod.fst hpmem
            rw [hqu, mem_idRange] at hmem
            rw [hqe, ← hp1]
            omega
        refine ⟨j, hj, ⟨?_, ?_, ?_, ?_, ?_⟩, ?_, ?_⟩
        · rw [← hc1, mf.2.2.2.2, hframe.2.1]
          simp only [hctr]
          push_cast
          omega
        · rw [← hc1, mf.2.2.1]
          exact hst3
        · rw [← hc1, mf.2.2.2.1]
          have : ((k + j : Nat) : Int) + 1 = (k : Int) + 1 + (j : Int) := by push_cast; ring
          rw [this]
          exact hqu3
        · rw [← hc1, mf.2.2.2.1]
          exact hkey3
        · intro i hi
          rw [← hc1] at hi ⊢
          rw [mf.2.2.2.1] at hi
          rw [hframe.1] at hi
          rw [mf.2.2.2.2, hframe.2.1]
          simp only at hi
          rcases set_ready_sub _ _ _ hi with hi | hi
          · rw [hi]
            exact hqeid
          · exact hrb i hi
        · rw [← hc2, insertedIds_append, mf.1, hins3]
          simp
        · rw [← hc2, reservedIds_append, mf.2.1, hres3]
          simp

/-- One handled message preserves the trace shape. -/
theorem handle_shape (s : HashIndexState) (tr : List Event) (m : Msg) (t : Bool)
    (s' : HashIndexState) (rep : Reply) (evs : List Event)
    (hT : TraceShape s tr) (hh : handle s m t = some (s', rep, evs)) :
    TraceShape s' (tr ++ evs) := by
  obtain ⟨k, q, hS, hins, hres⟩ := hT
  cases m with
  | hashExists h =>
    simp only [handle] at hh
    split at hh
    · cases hh
    · simp only [Option.some.injEq, Prod.mk.injEq] at hh
      obtain ⟨h1, _, h3⟩ := hh
      subst h1; subst h3
      exact ⟨k, q, hS, by simpa using hins, by simpa using hres⟩
  | fetchPayload h =>
    simp only [handle] at hh
    split at hh
    · cases hh
    · simp only [Option.some.injEq, Prod.mk.injEq] at hh
      obtain ⟨h1, _, h3⟩ := hh
      subst h1; subst h3
      exact ⟨k, q, hS, by simpa using hins, by simpa using hres⟩
  | fetchPersistentRef h =>
    simp only [handle] at hh
    split at hh
    · cases hh
    · simp only [Option.some.injEq, Prod.mk.injEq] at hh
      obtain ⟨h1, _, h3⟩ := hh
      subst h1; subst h3
      exact ⟨k, q, hS, by simpa using hins, by simpa using hres⟩
  | reserve he =>
    simp only [handle] at hh
    split at hh
    · cases hh
    · split at hh
      · simp only [Option.some.injEq, Prod.mk.injEq] at hh
        obtain ⟨h1, _, h3⟩ := hh
        subst h1; subst h3
        exact ⟨k, q, hS, by simpa using hins, by simpa using hres⟩
      · split at hh
        · cases hh
        · rename_i s2 evs2 hres2
          simp only [Option.some.injEq, Prod.mk.injEq] at hh
          obtain ⟨h1, _, h3⟩ := hh
          subst h1; subst h3
          obtain ⟨hS2, hins2, hres2'⟩ := reserve_shape s he t k q hS s2 evs2 hres2
          refine ⟨k, q + 1, hS2, ?_, ?_⟩
          · rw [insertedIds_append, hins2, hins]
            simp
          · rw [reservedIds_append, hres2', hres]
            rw [show k + (q + 1) = (k + q) + 1 from by omega, idRange_snoc]
            have : (1 : Int) + ((k + q : Nat) : Int) = (k : Int) + (q : Int) + 1 := by
              push_cast; ring
            rw [this]
  | updateReserved he =>
    simp only [handle] at hh
    split at hh
    · cases hh
    · split at hh
      · cases hh
      · rename_i s2 hu
        simp only [Option.some.injEq, Prod.mk.injEq] at hh
        obtain ⟨h1, _, h3⟩ := hh
        subst h1; subst h3
        exact ⟨k, q, update_reserved_shape s he k q hS s2 hu,
          by simpa using hins, by simpa using hres⟩
  | commit h r =>
    simp only [handle] at hh
    split at hh
    · cases hh
    · split at hh
      · cases hh
      · rename_i s2 evs2 hcmt
        simp only [Option.some.injEq, Prod.mk.injEq] at hh
        obtain ⟨h1, _, h3⟩ := hh
        subst h1; subst h3
        obtain ⟨j, hj, hS2, hins2, hres2⟩ := commit_shape s h r t k q hS s2 evs2 hcmt
        refine ⟨k + j, q - j, hS2, ?_, ?_⟩
        · rw [insertedIds_append, hins2, hins]
          rw [idRange_add 1 k j]
          have : (1 : Int) + (k : Int) = (k : Int) + 1 := by ring
          rw [this]
        · rw [reservedIds_append, hres2, hres]
          rw [show k + j + (q - j) = k + q from by omega]
          simp
  | callAfterHashIsComitted h kk =>
    simp only [handle, register_hash_callback] at hh
    split at hh
    · cases hh
    · split at hh
      · simp only [if_true, if_false, Bool.false_eq_true,
          Option.some.injEq, Prod.mk.injEq] at hh
        obtain ⟨h1, _, h3⟩ := hh
        subst h1; subst h3
        refine ⟨k, q, stateShape_of_fields s _ k q hS rfl rfl rfl,
          by simpa using hins, by simpa using hres⟩
      · split at hh
        · simp only [if_true, if_false, Bool.false_eq_true,
            Option.some.injEq, Prod.mk.injEq] at hh
          obtain ⟨h1, _, h3⟩ := hh
          subst h1; subst h3
          refine ⟨k, q, hS, ?_, ?_⟩
          · rw [insertedIds_append, hins]
            simp [insertedIds]
          · rw [reservedIds_append, hres]
            simp [reservedIds]
        · simp only [if_true, if_false, Bool.false_eq_true,
            Option.some.injEq, Prod.mk.injEq] at hh
          obtain ⟨h1, _, h3⟩ := hh
          subst h1; subst h3
          exact ⟨k, q, hS, by simpa using hins, by simpa using hres⟩
  | flush =>
    simp only [handle] at hh
    simp only [Option.some.injEq, Prod.mk.injEq] at hh
    obtain ⟨h1, _, h3⟩ := hh
    subst h1; subst h3
    refine ⟨k, q, stateShape_of_fields s _ k q hS rfl rfl rfl, ?_, ?_⟩
    · rw [insertedIds_append, hins]
      show idRange 1 k ++ insertedIds (Event.dbCommit :: s.callbacks.firedEvents) = idRange 1 k
      simp only [insertedIds, List.filterMap_cons]
      rw [show List.filterMap _ s.callbacks.firedEvents = insertedIds s.callbacks.firedEvents
        from rfl, (firedEvents_ids s.callbacks).1]
      simp
    · rw [reservedIds_append, hres]
      show idRange 1 (k + q) ++ reservedIds (Event.dbCommit :: s.callbacks.firedEvents) =
        idRange 1 (k + q)
      simp only [reservedIds, List.filterMap_cons]
      rw [show List.filterMap _ s.callbacks.firedEvents = reservedIds s.callbacks.firedEvents
        from rfl, (firedEvents_ids s.callbacks).2]
      simp

/-- A whole run preserves the trace shape. -/
theorem run_shape : ∀ (msgs : List (Msg × Bool)) (s : HashIndexState) (tr : List Event),
    TraceShape s tr → TraceShape (run s msgs).1 (tr ++ (run s msgs).2) := by
  intro msgs
  induction msgs with
  | nil =>
    intro s tr hT
    simpa [run] using hT
  | cons mt rest ih =>
    intro s tr hT
    obtain ⟨m, t⟩ := mt
    simp only [run]
    cases hh : handle s m t with
    | none => simpa [run, hh] using hT
    | some res =>
      obtain ⟨s2, rep, evs⟩ := res
      have hT2 := handle_shape s tr m t s2 rep evs hT hh
      have := ih s2 (tr ++ evs) hT2
      simpa [List.append_assoc] using this

/-- The initial state with the empty trace has the trace shape. -/
theorem initState_shape : TraceShape initState [] := by
  refine ⟨0, 0, ⟨?_, ?_, ?_, ?_, ?_⟩, ?_, ?_⟩ <;>
    simp [initState, idRange, insertedIds, reservedIds, StateShape]

/-- Claim C1: over any sequence of messages, the ids of the rows inserted
into the Durable Store are strictly increasing and form a contiguous
prefix of the reservation order: the reserved ids extend the inserted ids. -/
theorem c1_ordering (msgs : List (Msg × Bool)) :
    (∃ rest, reservedIds (run initState msgs).2 =
      insertedIds (run initState msgs).2 ++ rest) ∧
    List.Chain' (fun x y => x < y) (insertedIds (run initState msgs).2) := by
  have hr := run_shape msgs initState [] initState_shape
  rw [List.nil_append] at hr
  obtain ⟨k, q, hS, hins, hres⟩ := hr
  constructor
  · refine ⟨idRange ((k : Int) + 1) q, ?_⟩
    rw [hins, hres, idRange_add 1 k q]
    have : (1 : Int) + (k : Int) = (k : Int) + 1 := by ring
    rw [this]
  · rw [hins]
    exact idRange_chain 1 k

/-- The seed of the max fold bounds the fold result. -/
theorem maxId_init_le : ∀ (rows : List Row) (init : Int),
    init ≤ rows.foldl (fun m r => max m r.id) init := by
  intro rows
  induction rows with
  | nil => intro init; exact le_refl init
  | cons a t ih =>
    intro init
    exact le_trans (le_max_left init a.id) (ih (max init a.id))

/-- Every row id is bounded by the max fold. -/
theorem le_maxId_aux : ∀ (rows : List Row) (init : Int) (r : Row), r ∈ rows →
    r.id ≤ rows.foldl (fun m r => max m r.id) init := by
  intro rows
  induction rows with
  | nil => intro init r hr; cases hr
  | cons a t ih =>
    intro init r hr
    rcases List.mem_cons.mp hr with hr | hr
    · subst hr
      exact le_trans (le_max_right init r.id) (maxId_init_le t (max init r.id))
    · exact ih (max init a.id) r hr

/-- Every durable row id is at most maxId. -/
theorem le_maxId (rows : List Row) (r : Row) (hr : r ∈ rows) : r.id ≤ maxId rows :=
  le_maxId_aux rows 0 r hr

/-- Counterexample to claim C9 as stated: reserving digest [1] on a fresh
index issues id 1; reopening (nothing was drained and committed, so the
durable store is empty) and reserving again issues id 1 once more, so the
id issued after reopening does not strictly exceed every previously used
id. -/
theorem c9_counterexample :
    reservedIds (run initState [(Msg.reserve heSample, false)]).2 = [1] ∧
    reservedIds (run (reopen (run initState [(Msg.reserve heSample, false)]).1)
      [(Msg.reserve heSample, false)]).2 = [1] ∧
    ¬ (∀ i ∈ reservedIds (run initState [(Msg.reserve heSample, false)]).2,
       ∀ j ∈ reservedIds (run (reopen (run initState [(Msg.reserve heSample, false)]).1)
         [(Msg.reserve heSample, false)]).2, i < j) := by
  refine ⟨by decide, by decide, ?_⟩
  intro hall
  have := hall 1 (by decide) 1 (by decide)
  omega

/-- Claim C9 amended: within one run the issued reservation ids are strictly
increasing; at construction the counter is initialized from the maximum
durable id, so the first id issued after reopening is max(id) + 1 (1 over
an empty store) and strictly exceeds every id recorded in the Durable
Store; ids of reservations that never drained and committed may however be
reissued after a reopen. -/
theorem c9_amended :
    (∀ msgs, List.Chain' (fun x y => x < y) (reservedIds (run initState msgs).2)) ∧
    (∀ rows, (reopenFrom rows).idCounter = maxId rows) ∧
    (∀ rows (he : HashEntry), he.hash ≠ [] → locate (reopenFrom rows) he.hash = none →
      evsOf (handle (reopenFrom rows) (Msg.reserve he) false) =
        [Event.reserved (maxId rows + 1)]) ∧
    (∀ rows, ∀ r ∈ rows, r.id < maxId rows + 1) := by
  refine ⟨?_, ?_, ?_, ?_⟩
  · intro msgs
    have hr := run_shape msgs initState [] initState_shape
    rw [List.nil_append] at hr
    obtain ⟨k, q, _, _, hres⟩ := hr
    rw [hres]
    exact idRange_chain 1 (k + q)
  · intro rows
    rfl
  · intro rows he hne hloc
    have hparts := locate_none_parts (reopenFrom rows) he.hash hloc
    have hput : (reopenFrom rows).queue.reserve_put (maxId rows + 1) he.hash
        { id := maxId rows + 1, level := he.level, payload := he.payload,
          persistent_ref := he.persistent_ref } =
        some { items := [(maxId rows + 1,
          { digest := he.hash,
            entry := { id := maxId rows + 1, level := he.level, payload := he.payload,
                       persistent_ref := he.persistent_ref } })], ready := [] } := by
      unfold UPQ.reserve_put
      rw [hparts.1]
      rfl
    have hcnt : (reopenFrom rows).idCounter = maxId rows := rfl
    simp [handle, hne, hloc, reserve, maybe_flush, evsOf, hcnt, hput]
  · intro rows r hr
    have := le_maxId rows r hr
    omega

/-- Witness for the amended C9: after reopening from a store whose single row
has id 1, reserving a fresh digest issues id 2, which strictly exceeds the
durable id 1. -/
theorem c9_witness :
    evsOf (handle (reopenFrom [rowSample])
      (Msg.reserve { hash := [2], level := 0, payload := none, persistent_ref := none })
      false) = [Event.reserved 2] ∧
    rowSample.id < maxId [rowSample] + 1 := by
  constructor
  · have := c9_amended.2.2.1 [rowSample]
      { hash := [2], level := 0, payload := none, persistent_ref := none }
      (by decide) (by decide)
    simpa using this
  · exact c9_amended.2.2.2 [rowSample] rowSample (by decide)

/-- Counterexample to claim C7 as stated: Reserve then Commit with an empty
blob_ref produces a durable row whose blob_ref column is empty. -/
theorem c7_counterexample :
    (run initState [(Msg.reserve heSample, false),
      (Msg.commit [1] [], false)]).1.store.map Row.blob_ref = [[]] ∧
    ¬ storeRefOK (run initState [(Msg.reserve heSample, false),
      (Msg.commit [1] [], false)]).1 := by
  constructor
  · decide
  · intro hok
    have := hok { id := 1, hash := [1], height := 0, payload := [], blob_ref := [] }
      (by decide)
    exact this rfl

/-- Two bindings of an association list whose keys are duplicate-free and
equal are the same binding. -/
theorem fst_nodup_inj {α β : Type} (l : List (α × β)) (hn : (l.map Prod.fst).Nodup)
    (x y : α × β) (hx : x ∈ l) (hy : y ∈ l) (hxy : x.1 = y.1) : x = y := by
  induction l with
  | nil => cases hx
  | cons a t ih =>
    simp only [List.map_cons, List.nodup_cons] at hn
    rcases List.mem_cons.mp hx with hx | hx <;> rcases List.mem_cons.mp hy with hy | hy
    · rw [hx, hy]
    · exfalso
      apply hn.1
      rw [hx] at hxy
      rw [hxy]
      exact List.mem_map_of_mem Prod.fst hy
    · exfalso
      apply hn.1
      rw [hy] at hxy
      rw [← hxy]
      exact List.mem_map_of_mem Prod.fst hx
    · exact ih hn.2 hx hy

/-- readyRefOK and storeRefOK only look at the queue and the store. -/
theorem refOK_of_fields (s s' : HashIndexState) (h1 : s'.store = s.store)
    (h2 : s'.queue = s.queue) (hready : readyRefOK s) (hstore : storeRefOK s) :
    readyRefOK s' ∧ storeRefOK s' := by
  constructor
  · intro p hp hr
    rw [h2] at hp hr
    exact hready p hp hr
  · intro r hr
    rw [h1] at hr
    exact hstore r hr

/-- Draining preserves the reference invariants: only ready entries drain,
and a ready entry's reference is non-empty. -/
theorem drain_refOK : ∀ (fuel : Nat) (s s' : HashIndexState) (evs : List Event),
    readyRefOK s → storeRefOK s →
    insert_completed_in_order fuel s = some (s', evs) →
    readyRefOK s' ∧ storeRefOK s' := by
  intro fuel
  induction fuel with
  | zero =>
    intro s s' evs hready hstore h
    simp only [insert_completed_in_order, Option.some.injEq, Prod.mk.injEq] at h
    obtain ⟨h1, _⟩ := h
    subst h1
    exact ⟨hready, hstore⟩
  | succ n ih =>
    intro s s' evs hready hstore h
    simp only [insert_completed_in_order] at h
    split at h
    · simp only [Option.some.injEq, Prod.mk.injEq] at h
      obtain ⟨h1, _⟩ := h
      subst h1
      exact ⟨hready, hstore⟩
    · rename_i id v q' heq
      split at h
      · cases h
      · rename_i pref hpref
        split at h
        · cases h
        · rename_i hdup
          split at h
          · cases h
          · rename_i s2 evs2 hrec
            simp only [Option.some.injEq, Prod.mk.injEq] at h
            obtain ⟨h1, _⟩ := h
            subst h1
            have hshape := pop_some_shape s.queue id v q' heq
            have hhead : (id, v) ∈ s.queue.items := by
              rw [hshape.1]
              exact List.mem_cons_self _ _
            have hprefOK : prefOK v.entry := hready (id, v) hhead hshape.2.2
            have hprefne : pref ≠ [] := by
              rcases hprefOK with hnone | ⟨b, hb, hbne⟩
              · rw [hpref] at hnone; cases hnone
              · rw [hpref] at hb
                simp only [Option.some.injEq] at hb
                rw [hb]
                exact hbne
            apply ih _ _ _ ?_ ?_ hrec
            · intro p hp hr
              simp only at hp hr
              rw [hshape.2.1] at hr
              exact hready p (by rw [hshape.1]; exact List.mem_cons_of_mem _ hp) hr
            · intro r hr
              simp only at hr
              rcases List.mem_append.mp hr with hr | hr
              · exact hstore r hr
              · simp only [List.mem_singleton] at hr
                rw [hr]
                simp only [mkRow]
                exact hprefne

/-- One handled message whose references are well-formed (commit refs
non-empty, update refs absent or non-empty) preserves the reference
invariants. -/
theorem handle_refOK (s : HashIndexState) (k q : Nat) (m : Msg) (t : Bool)
    (s' : HashIndexState) (rep : Reply) (evs : List Event)
    (hS : StateShape s k q) (hready : readyRefOK s) (hstore : storeRefOK s)
    (hm : msgRefOK m) (hh : handle s m t = some (s', rep, evs)) :
    readyRefOK s' ∧ storeRefOK s' := by
  obtain ⟨hctr, hst, hqu, hkey, hrb⟩ := hS
  have hnodup : (s.queue.items.map Prod.fst).Nodup := by
    rw [hqu]; exact idRange_nodup _ _
  cases m with
  | hashExists h =>
    simp only [handle] at hh
    split at hh
    · cases hh
    · simp only [Option.some.injEq, Prod.mk.injEq] at hh
      obtain ⟨h1, _⟩ := hh
      subst h1
      exact ⟨hready, hstore⟩
  | fetchPayload h =>
    simp only [handle] at hh
    split at hh
    · cases hh
    · simp only [Option.some.injEq, Prod.mk.injEq] at hh
      obtain ⟨h1, _⟩ := hh
      subst h1
      exact ⟨hready, hstore⟩
  | fetchPersistentRef h =>
    simp only [handle] at hh
    split at hh
    · cases hh
    · simp only [Option.some.injEq, Prod.mk.injEq] at hh
      obtain ⟨h1, _⟩ := hh
      subst h1
      exact ⟨hready, hstore⟩
  | reserve he =>
    simp only [handle] at hh
    split at hh
    · cases hh
    · split at hh
      · simp only [Option.some.injEq, Prod.mk.injEq] at hh
        obtain ⟨h1, _⟩ := hh
        subst h1
        exact ⟨hready, hstore⟩
      · split at hh
        · cases hh
        · rename_i s2 evs2 hres2
          simp only [Option.some.injEq, Prod.mk.injEq] at hh
          obtain ⟨h1, _⟩ := hh
          subst h1
          have mf := maybe_flush_ids s t
          simp only [reserve] at hres2
          rw [mf.2.2.2.1, mf.2.2.2.2] at hres2
          split at hres2
          · cases hres2
          · rename_i q2 hput
            simp only [Option.some.injEq, Prod.mk.injEq] at hres2
            obtain ⟨hs2, _⟩ := hres2
            unfold UPQ.reserve_put at hput
            split at hput
            · cases hput
            · simp only [Option.some.injEq] at hput
              constructor
              · intro p hp hr
                rw [← hs2] at hp hr
                simp only at hp hr
                rw [← hput] at hp hr
                simp only at hp hr
                have hbig : ∀ y ∈ s.queue.items, y.1 < s.idCounter + 1 := by
                  intro y hy
                  have hmem : y.1 ∈ s.queue.items.map Prod.fst :=
                    List.mem_map_of_mem Prod.fst hy
                  rw [hqu, mem_idRange] at hmem
                  omega
                rw [insertSorted_append _ _ hbig] at hp
                rcases List.mem_append.mp hp with hp | hp
                · exact hready p hp hr
                · simp only [List.mem_singleton] at hp
                  exfalso
                  have := hrb p.1 (by rw [hp] at hr ⊢; exact hr)
                  rw [hp] at this
                  simp only at this
                  omega
              · intro r hr
                rw [← hs2] at hr
                simp only [mf.2.2.1] at hr
                exact hstore r hr
  | updateReserved he =>
    simp only [handle] at hh
    split at hh
    · cases hh
    · split at hh
      · cases hh
      · rename_i s2 hu
        simp only [Option.some.injEq, Prod.mk.injEq] at hh
        obtain ⟨h1, _⟩ := hh
        subst h1
        simp only [update_reserved] at hu
        split at hu
        · cases hu
        · rename_i old hloc
          split at hu
          · simp only [Option.some.injEq] at hu
            subst hu
            exact ⟨hready, hstore⟩
          · rename_i id hkeyq
            split at hu
            · simp only [Option.some.injEq] at hu
              subst hu
              constructor
              · intro p hp hr
                simp only [UPQ.update_value] at hp hr
                simp only [List.mem_map] at hp
                obtain ⟨x, hx, hxe⟩ := hp
                by_cases hc : x.2.digest = he.hash
                · rw [if_pos hc] at hxe
                  rw [← hxe]
                  simp only [prefOK]
                  simp only [msgRefOK] at hm
                  cases hp2 : he.persistent_ref with
                  | none => exact Or.inl rfl
                  | some b =>
                    refine Or.inr ⟨b, rfl, ?_⟩
                    intro hb
                    rw [hb] at hp2
                    exact hm hp2
                · rw [if_neg hc] at hxe
                  rw [← hxe] at hr ⊢
                  exact hready x hx hr
              · exact hstore
            · cases hu
  | commit h r =>
    simp only [handle] at hh
    split at hh
    · cases hh
    · split at hh
      · cases hh
      · rename_i s2 evs2 hcmt
        simp only [Option.some.injEq, Prod.mk.injEq] at hh
        obtain ⟨h1, _⟩ := hh
        subst h1
        simp only [commit] at hcmt
        split at hcmt
        · cases hcmt
        · rename_i qe hloc
          split at hcmt
          · cases hcmt
          · rename_i key hkeyq
            split at hcmt
            · cases hcmt
            · rename_i s3 evs3 hdrain
              simp only [Option.some.injEq, Prod.mk.injEq] at hcmt
              obtain ⟨hc1, _⟩ := hcmt
              -- the item under digest h
              have hfi : ∃ p0, s.queue.find_item h = some p0 := by
                cases hfi0 : s.queue.find_item h with
                | none => rw [UPQ.find_key, hfi0] at hkeyq; cases hkeyq
                | some p0 => exact ⟨p0, rfl⟩
              obtain ⟨p0, hfi⟩ := hfi
              have hqe : qe = p0.2.entry := by
                have hleq : locate s h = some p0.2.entry := by
                  simp [locate, UPQ.find_value_of_key, hfi]
                rw [hleq] at hloc
                simp only [Option.some.injEq] at hloc
                exact hloc.symm
              have hp0mem : p0 ∈ s.queue.items := List.mem_of_find?_eq_some hfi
              have hp0dig : p0.2.digest = h := by
                have := List.find?_some hfi
                simpa using this
              have hreadyU : readyRefOK { s with queue :=
                  (s.queue.update_value h (fun old =>
                    { old with persistent_ref := some r })).set_ready qe.id } := by
                intro p hp hr
                simp only [set_ready_items] at hp
                simp only [UPQ.update_value] at hp
                simp only [List.mem_map] at hp
                obtain ⟨x, hx, hxe⟩ := hp
                by_cases hc : x.2.digest = h
                · rw [if_pos hc] at hxe
                  rw [← hxe]
                  simp only [prefOK]
                  simp only [msgRefOK] at hm
                  exact Or.inr ⟨r, rfl, hm⟩
                · rw [if_neg hc] at hxe
                  rw [← hxe] at hr ⊢
                  simp only at hr
                  rcases set_ready_sub _ _ _ hr with hr | hr
                  · exfalso
                    have hxp0 : x = p0 := by
                      apply fst_nodup_inj s.queue.items hnodup x p0 hx hp0mem
                      rw [hr, hqe]
                      exact (hkey p0 hp0mem).symm
                    rw [hxp0] at hc
                    exact hc hp0dig
                  · exact hready x hx hr
              have hstoreU : storeRefOK { s with queue :=
                  (s.queue.update_value h (fun old =>
                    { old with persistent_ref := some r })).set_ready qe.id } := hstore
              have hdr := drain_refOK _ _ _ _ hreadyU hstoreU hdrain
              have mf := maybe_flush_frame s3 t
              rw [← hc1]
              exact refOK_of_fields s3 _ mf.1 mf.2 hdr.1 hdr.2
  | callAfterHashIsComitted h kk =>
    simp only [handle, register_hash_callback] at hh
    split at hh
    · cases hh
    · split at hh
      · simp only [if_true, if_false, Bool.false_eq_true,
          Option.some.injEq, Prod.mk.injEq] at hh
        obtain ⟨h1, _⟩ := hh
        subst h1
        exact refOK_of_fields s _ rfl rfl hready hstore
      · split at hh
        · simp only [if_true, if_false, Bool.false_eq_true,
            Option.some.injEq, Prod.mk.injEq] at hh
          obtain ⟨h1, _⟩ := hh
          subst h1
          exact ⟨hready, hstore⟩
        · simp only [if_true, if_false, Bool.false_eq_true,
            Option.some.injEq, Prod.mk.injEq] at hh
          obtain ⟨h1, _⟩ := hh
          subst h1
          exact ⟨hready, hstore⟩
  | flush =>
    simp only [handle] at hh
    simp only [Option.some.injEq, Prod.mk.injEq] at hh
    obtain ⟨h1, _⟩ := hh
    subst h1
    exact refOK_of_fields s _ rfl rfl hready hstore

/-- A whole run of reference-well-formed messages preserves the reference
invariants. -/
theorem run_refOK : ∀ (msgs : List (Msg × Bool)) (s : HashIndexState) (tr : List Event),
    TraceShape s tr → readyRefOK s → storeRefOK s →
    (∀ mt ∈ msgs, msgRefOK mt.1) →
    readyRefOK (run s msgs).1 ∧ storeRefOK (run s msgs).1 := by
  intro msgs
  induction msgs with
  | nil =>
    intro s tr hT hready hstore _
    simpa [run] using And.intro hready hstore
  | cons mt rest ih =>
    intro s tr hT hready hstore hok
    obtain ⟨m, t⟩ := mt
    simp only [run]
    cases hh : handle s m t with
    | none => simpa [run, hh] using And.intro hready hstore
    | some res =>
      obtain ⟨s2, rep, evs⟩ := res
      obtain ⟨k, q, hS, _, _⟩ := hT
      have hstep := handle_refOK s k q m t s2 rep evs hS hready hstore
        (hok (m, t) (List.mem_cons_self _ _)) hh
      have hT2 := handle_shape s tr m t s2 rep evs ⟨k, q, hS, by assumption, by assumption⟩ hh
      exact ih s2 (tr ++ evs) hT2 hstep.1 hstep.2
        (fun mt hmt => hok mt (List.mem_cons_of_mem _ hmt))

/-- Claim C7 amended: every durable row's blob_ref is the reference supplied
by the draining commit, so provided every Commit supplies a non-empty
blob_ref and every UpdateReserved supplies an absent or non-empty
persistent_ref, every durable row has a non-empty blob_ref; a Commit with
an empty blob_ref produces a durable row with an empty blob_ref column. -/
theorem c7_amended (msgs : List (Msg × Bool))
    (hok : ∀ mt ∈ msgs, msgRefOK mt.1) :
    storeRefOK (run initState msgs).1 := by
  have hready0 : readyRefOK initState := by
    intro p hp
    simp [initState] at hp
  have hstore0 : storeRefOK initState := by
    intro r hr
    simp [initState] at hr
  exact (run_refOK msgs initState [] initState_shape hready0 hstore0 hok).2

/-- Witness for the amended C7: with a non-empty commit reference every
durable row of the concrete run carries a non-empty blob_ref. -/
theorem c7_witness :
    storeRefOK (run initState [(Msg.reserve heSample, false),
      (Msg.commit [1] [5], false)]).1 := by
  apply c7_amended
  intro mt hmt
  simp only [List.mem_cons, List.not_mem_nil, or_false] at hmt
  rcases hmt with h | h
  · rw [h]
    simp [msgRefOK]
  · rw [h]
    simp [msgRefOK]

/-- gateOK splits along an append, threading the bookkeeping fold. -/
theorem gateOK_append : ∀ (a b : List Event) (p : List Bytes × List Bytes),
    gateOK p (a ++ b) = (gateOK p a && gateOK (a.foldl gateStep p) b) := by
  intro a
  induction a with
  | nil => intro b p; simp [gateOK]
  | cons e t ih =>
    intro b p
    simp only [List.cons_append, gateOK, List.foldl_cons, List.append_eq]
    rw [ih b (gateStep p e)]
    cases (match e with
      | Event.fireFlush d _ => decide (d ∈ p.2)
      | _ => true) <;> simp

/-- One gate step never loses an inserted digest. -/
theorem gateStep_ins_mono (p : List Bytes × List Bytes) (e : Event) (d : Bytes)
    (hd : d ∈ p.1) : d ∈ (gateStep p e).1 := by
  cases e <;> simp [gateStep, hd]

/-- The gate fold never loses an inserted digest. -/
theorem foldl_gateStep_ins_mono : ∀ (evs : List Event) (p : List Bytes × List Bytes)
    (d : Bytes), d ∈ p.1 → d ∈ (evs.foldl gateStep p).1 := by
  intro evs
  induction evs with
  | nil => intro p d hd; exact hd
  | cons e t ih =>
    intro p d hd
    simp only [List.foldl_cons]
    exact ih (gateStep p e) d (gateStep_ins_mono p e d hd)

/-- A list of row insertions always passes the gate. -/
theorem gateOK_all_insert : ∀ (l : List Event) (p : List Bytes × List Bytes),
    (∀ e ∈ l, ∃ i d, e = Event.insertRow i d) → gateOK p l = true := by
  intro l
  induction l with
  | nil => intro p _; rfl
  | cons e t ih =>
    intro p hall
    obtain ⟨i, d, rfl⟩ := hall e (List.mem_cons_self _ _)
    simp only [gateOK]
    exact ih _ (fun x hx => hall x (List.mem_cons_of_mem _ hx))

/-- A list of registered-callback invocations whose digests are all already
covered by a commit passes the gate. -/
theorem gateOK_fires : ∀ (l : List Event) (p : List Bytes × List Bytes),
    (∀ e ∈ l, ∃ d k, e = Event.fireFlush d k ∧ d ∈ p.2) → gateOK p l = true := by
  intro l
  induction l with
  | nil => intro p _; rfl
  | cons e t ih =>
    intro p hall
    obtain ⟨d, k, rfl, hd⟩ := hall e (List.mem_cons_self _ _)
    simp only [gateOK, gateStep]
    rw [decide_eq_true hd]
    simp only [Bool.true_and]
    apply ih
    intro x hx
    obtain ⟨d', k', rfl, hd'⟩ := hall x (List.mem_cons_of_mem _ hx)
    exact ⟨d', k', rfl, hd'⟩

/-- Every fired event names a flushable digest of the registry. -/
theorem fired_mem_flag (c : CallbackContainer) (e : Event) (he : e ∈ c.firedEvents) :
    ∃ d ks k, (d, ks, true) ∈ c.entries ∧ e = Event.fireFlush d k := by
  unfold CallbackContainer.firedEvents at he
  simp only [List.mem_flatMap, List.mem_filter, List.mem_map] at he
  obtain ⟨x, ⟨hx, hflag⟩, k, hk, rfl⟩ := he
  refine ⟨x.1, x.2.1, k, ?_, rfl⟩
  rw [← hflag]
  exact hx

/-- add never raises a flushable flag: a flushable entry after add was
flushable before. -/
theorem cb_add_flag (c : CallbackContainer) (h : Bytes) (k : Nat) (d : Bytes)
    (ks : List Nat) (hmem : (d, ks, true) ∈ (c.add h k).entries) :
    ∃ ks0, (d, ks0, true) ∈ c.entries := by
  unfold CallbackContainer.add at hmem
  split at hmem
  · simp only [List.mem_map] at hmem
    obtain ⟨x, hx, hxe⟩ := hmem
    by_cases hc : x.1 = h
    · rw [if_pos hc] at hxe
      simp only [Prod.mk.injEq] at hxe
      refine ⟨x.2.1, ?_⟩
      have hxd : (d, x.2.1, true) = x := by
        rw [← hxe.1, ← hxe.2.2]
      rw [hxd]
      exact hx
    · rw [if_neg hc] at hxe
      rw [hxe] at hx
      exact ⟨ks, hx⟩
  · simp only [List.mem_append, List.mem_singleton] at hmem
    rcases hmem with hmem | hmem
    · exact ⟨ks, hmem⟩
    · simp at hmem

/-- allow_flush_of raises at most the given digest's flag: a flushable entry
afterwards either has that digest or was flushable before. -/
theorem cb_allow_flag (c : CallbackContainer) (h : Bytes) (d : Bytes)
    (ks : List Nat) (hmem : (d, ks, true) ∈ (c.allow_flush_of h).entries) :
    d = h ∨ (d, ks, true) ∈ c.entries := by
  unfold CallbackContainer.allow_flush_of at hmem
  simp only [List.mem_map] at hmem
  obtain ⟨x, hx, hxe⟩ := hmem
  by_cases hc : x.1 = h
  · rw [if_pos hc] at hxe
    simp only [Prod.mk.injEq] at hxe
    left
    rw [← hxe.1]
    exact hc
  · rw [if_neg hc] at hxe
    rw [hxe] at hx
    exact Or.inr hx

/-- After a registry flush nothing is flushable. -/
theorem cb_flush_flag (c : CallbackContainer) (d : Bytes) (ks : List Nat)
    (hmem : (d, ks, true) ∈ c.flush.1.entries) : False := by
  unfold CallbackContainer.flush at hmem
  simp only [List.mem_filter] at hmem
  have := hmem.2
  simp at this

/-- Draining passes the gate (only insertions are emitted) and keeps every
flushable digest covered by the accumulated insertions. -/
theorem drain_gate : ∀ (fuel : Nat) (s : HashIndexState) (p : List Bytes × List Bytes)
    (s' : HashIndexState) (evs : List Event),
    flushableOK s p.1 →
    insert_completed_in_order fuel s = some (s', evs) →
    gateOK p evs = true ∧ flushableOK s' (evs.foldl gateStep p).1 := by
  intro fuel
  induction fuel with
  | zero =>
    intro s p s' evs hfl h
    simp only [insert_completed_in_order, Option.some.injEq, Prod.mk.injEq] at h
    obtain ⟨h1, h2⟩ := h
    subst h1
    subst h2
    exact ⟨rfl, hfl⟩
  | succ n ih =>
    intro s p s' evs hfl h
    simp only [insert_completed_in_order] at h
    split at h
    · simp only [Option.some.injEq, Prod.mk.injEq] at h
      obtain ⟨h1, h2⟩ := h
      subst h1
      subst h2
      exact ⟨rfl, hfl⟩
    · rename_i id v q' heq
      split at h
      · cases h
      · rename_i pref hpref
        split at h
        · cases h
        · rename_i hdup
          split at h
          · cases h
          · rename_i s2 evs2 hrec
            simp only [Option.some.injEq, Prod.mk.injEq] at h
            obtain ⟨h1, h2⟩ := h
            subst h1
            subst h2
            have hflMid : flushableOK
                { s with store := s.store ++ [mkRow id v.digest v.entry pref],
                         queue := q',
                         callbacks := s.callbacks.allow_flush_of v.digest }
                (v.digest :: p.1) := by
              intro d ks hmem
              simp only at hmem
              rcases cb_allow_flag s.callbacks v.digest d ks hmem with hd | hd
              · rw [hd]
                exact List.mem_cons_self _ _
              · exact List.mem_cons_of_mem _ (hfl d ks hd)
            have hmid := ih _ (v.digest :: p.1, p.2) _ _ hflMid hrec
            constructor
            · simp only [gateOK, gateStep]
              exact hmid.1
            · simp only [List.foldl_cons, gateStep]
              exact hmid.2

/-- A database flush passes the gate: the COMMIT event is emitted before any
registered callback fires, and every fired digest was already inserted. -/
theorem flush_gate (s : HashIndexState) (p : List Bytes × List Bytes)
    (hfl : flushableOK s p.1) :
    gateOK p (flush s).2 = true ∧
    flushableOK (flush s).1 ((flush s).2.foldl gateStep p).1 := by
  constructor
  · show gateOK p (Event.dbCommit :: s.callbacks.firedEvents) = true
    simp only [gateOK, gateStep, Bool.true_and]
    apply gateOK_fires
    intro e he
    obtain ⟨d, ks, k, hflag, rfl⟩ := fired_mem_flag s.callbacks e he
    exact ⟨d, k, rfl, hfl d ks hflag⟩
  · intro d ks hmem
    exact absurd hmem (fun hmem => cb_flush_flag s.callbacks d ks hmem)

/-- One handled message passes the gate and keeps every flushable digest
covered by the accumulated insertions. -/
theorem handle_gate (s : HashIndexState) (p : List Bytes × List Bytes) (m : Msg)
    (t : Bool) (s' : HashIndexState) (rep : Reply) (evs : List Event)
    (hfl : flushableOK s p.1) (hh : handle s m t = some (s', rep, evs)) :
    gateOK p evs = true ∧ flushableOK s' (evs.foldl gateStep p).1 := by
  cases m with
  | hashExists h =>
    simp only [handle] at hh
    split at hh
    · cases hh
    · simp only [Option.some.injEq, Prod.mk.injEq] at hh
      obtain ⟨h1, _, h3⟩ := hh
      subst h1; subst h3
      exact ⟨rfl, hfl⟩
  | fetchPayload h =>
    simp only [handle] at hh
    split at hh
    · cases hh
    · simp only [Option.some.injEq, Prod.mk.injEq] at hh
      obtain ⟨h1, _, h3⟩ := hh
      subst h1; subst h3
      exact ⟨rfl, hfl⟩
  | fetchPersistentRef h =>
    simp only [handle] at hh
    split at hh
    · cases hh
    · simp only [Option.some.injEq, Prod.mk.injEq] at hh
      obtain ⟨h1, _, h3⟩ := hh
      subst h1; subst h3
      exact ⟨rfl, hfl⟩
  | reserve he =>
    simp only [handle] at hh
    split at hh
    · cases hh
    · split at hh
      · simp only [Option.some.injEq, Prod.mk.injEq] at hh
        obtain ⟨h1, _, h3⟩ := hh
        subst h1; subst h3
        exact ⟨rfl, hfl⟩
      · split at hh
        · cases hh
        · rename_i s2 evs2 hres2
          simp only [Option.some.injEq, Prod.mk.injEq] at hh
          obtain ⟨h1, _, h3⟩ := hh
          subst h1; subst h3
          simp only [reserve] at hres2
          split at hres2
          · cases hres2
          · rename_i q2 hput
            simp only [Option.some.injEq, Prod.mk.injEq] at hres2
            obtain ⟨hs2, hevs⟩ := hres2
            rw [← hevs]
            cases t with
            | false =>
              constructor
              · rfl
              · intro d ks hmem
                rw [← hs2] at hmem
                simp only [maybe_flush] at hmem
                exact hfl d ks hmem
            | true =>
              have hfg := flush_gate s p hfl
              constructor
              · rw [gateOK_append]
                show (gateOK p (flush s).2 &&
                  gateOK (List.foldl gateStep p (flush s).2) [Event.reserved _]) = true
                rw [hfg.1]
                rfl
              · intro d ks hmem
                rw [← hs2] at hmem
                simp only [maybe_flush] at hmem
                exact absurd hmem (fun hmem => cb_flush_flag s.callbacks d ks hmem)
  | updateReserved he =>
    simp only [handle] at hh
    split at hh
    · cases hh
    · split at hh
      · cases hh
      · rename_i s2 hu
        simp only [Option.some.injEq, Prod.mk.injEq] at hh
        obtain ⟨h1, _, h3⟩ := hh
        subst h1; subst h3
        simp only [update_reserved] at hu
        split at hu
        · cases hu
        · rename_i old hloc
          split at hu
          · simp only [Option.some.injEq] at hu
            subst hu
            exact ⟨rfl, hfl⟩
          · rename_i id hkeyq
            split at hu
            · simp only [Option.some.injEq] at hu
              subst hu
              exact ⟨rfl, hfl⟩
            · cases hu
  | commit h r =>
    simp only [handle] at hh
    split at hh
    · cases hh
    · split at hh
      · cases hh
      · rename_i s2 evs2 hcmt
        simp only [Option.some.injEq, Prod.mk.injEq] at hh
        obtain ⟨h1, _, h3⟩ := hh
        subst h1; subst h3
        simp only [commit] at hcmt
        split at hcmt
        · cases hcmt
        · rename_i qe hloc
          split at hcmt
          · cases hcmt
          · rename_i key hkeyq
            split at hcmt
            · cases hcmt
            · rename_i s3 evs3 hdrain
              simp only [Option.some.injEq, Prod.mk.injEq] at hcmt
              obtain ⟨hc1, hc2⟩ := hcmt
              have hflU : flushableOK { s with queue :=
                  (s.queue.update_value h (fun old =>
                    { old with persistent_ref := some r })).set_ready qe.id } p.1 := hfl
              have hdg := drain_gate _ _ p _ _ hflU hdrain
              rw [← hc2]
              cases t with
              | false =>
                constructor
                · rw [gateOK_append, hdg.1]
                  rfl
                · rw [← hc1]
                  simp only [maybe_flush]
                  intro d ks hmem
                  have := hdg.2 d ks hmem
                  rw [List.foldl_append]
                  exact foldl_gateStep_ins_mono _ _ _ this
              | true =>
                have hmf : maybe_flush s3 true = flush s3 := rfl
                have hfg := flush_gate s3 (evs3.foldl gateStep p) hdg.2
                constructor
                · rw [gateOK_append, hdg.1, hmf, hfg.1]
                  rfl
                · rw [← hc1]
                  intro d ks hmem
                  simp only [maybe_flush] at hmem
                  exact absurd hmem (fun hmem => cb_flush_flag s3.callbacks d ks hmem)
  | callAfterHashIsComitted h kk =>
    simp only [handle, register_hash_callback] at hh
    split at hh
    · cases hh
    · split at hh
      · simp only [if_true, if_false, Bool.false_eq_true,
          Option.some.injEq, Prod.mk.injEq] at hh
        obtain ⟨h1, _, h3⟩ := hh
        subst h1; subst h3
        refine ⟨rfl, ?_⟩
        intro d ks hmem
        simp only at hmem
        obtain ⟨ks0, hks0⟩ := cb_add_flag s.callbacks h kk d ks hmem
        exact hfl d ks0 hks0
      · split at hh
        · simp only [if_true, if_false, Bool.false_eq_true,
            Option.some.injEq, Prod.mk.injEq] at hh
          obtain ⟨h1, _, h3⟩ := hh
          subst h1; subst h3
          exact ⟨rfl, hfl⟩
        · simp only [if_true, if_false, Bool.false_eq_true,
            Option.some.injEq, Prod.mk.injEq] at hh
          obtain ⟨h1, _, h3⟩ := hh
          subst h1; subst h3
          exact ⟨rfl, hfl⟩
  | flush =>
    simp only [handle] at hh
    simp only [Option.some.injEq, Prod.mk.injEq] at hh
    obtain ⟨h1, _, h3⟩ := hh
    subst h1; subst h3
    exact flush_gate s p hfl

/-- A whole run from a state whose flushable digests are covered passes the
durability gate. -/
theorem run_gate : ∀ (msgs : List (Msg × Bool)) (s : HashIndexState)
    (p : List Bytes × List Bytes), flushableOK s p.1 →
    gateOK p (run s msgs).2 = true := by
  intro msgs
  induction msgs with
  | nil => intro s p _; simp [run, gateOK]
  | cons mt rest ih =>
    intro s p hfl
    obtain ⟨m, t⟩ := mt
    simp only [run]
    cases hh : handle s m t with
    | none => simp [gateOK]
    | some res =>
      obtain ⟨s2, rep, evs⟩ := res
      have hstep := handle_gate s p m t s2 rep evs hfl hh
      simp only
      rw [gateOK_append, hstep.1]
      simp only [Bool.true_and]
      exact ih s2 (evs.foldl gateStep p) hstep.2

/-- Drain events are row insertions only: no callback ever runs during the
drain loop. -/
theorem drain_all_insert : ∀ (fuel : Nat) (s s' : HashIndexState) (evs : List Event),
    insert_completed_in_order fuel s = some (s', evs) →
    ∀ e ∈ evs, ∃ i d, e = Event.insertRow i d := by
  intro fuel
  induction fuel with
  | zero =>
    intro s s' evs h
    simp only [insert_completed_in_order, Option.some.injEq, Prod.mk.injEq] at h
    obtain ⟨_, h2⟩ := h
    subst h2
    intro e he
    cases he
  | succ n ih =>
    intro s s' evs h
    simp only [insert_completed_in_order] at h
    split at h
    · simp only [Option.some.injEq, Prod.mk.injEq] at h
      obtain ⟨_, h2⟩ := h
      subst h2
      intro e he
      cases he
    · rename_i id v q' heq
      split at h
      · cases h
      · rename_i pref hpref
        split at h
        · cases h
        · rename_i hdup
          split at h
          · cases h
          · rename_i s2 evs2 hrec
            simp only [Option.some.injEq, Prod.mk.injEq] at h
            obtain ⟨_, h2⟩ := h
            subst h2
            intro e he
            rcases List.mem_cons.mp he with he | he
            · exact ⟨id, v.digest, he⟩
            · exact ih _ _ _ hrec e he

/-- The flush of a registry with duplicate-free digests fires each callback
of a flushable digest exactly as often as it was registered. -/
theorem fired_count : ∀ (entries : List (Bytes × List Nat × Bool)) (d : Bytes)
    (ks : List Nat),
    (entries.map (fun e => e.1)).Nodup → (d, ks, true) ∈ entries →
    ∀ k, ((CallbackContainer.mk entries).firedEvents).count (Event.fireFlush d k) =
      ks.count k := by
  intro entries
  induction entries with
  | nil => intro d ks _ hmem; cases hmem
  | cons e rest ih =>
    intro d ks hnd hmem k
    simp only [List.map_cons, List.nodup_cons] at hnd
    have hrest0 : d ∉ rest.map (fun x => x.1) →
        ((CallbackContainer.mk rest).firedEvents).count (Event.fireFlush d k) = 0 := by
      intro hd
      rw [List.count_eq_zero]
      intro hcin
      obtain ⟨d', ks', k', hflag, hfe⟩ := fired_mem_flag ⟨rest⟩ _ hcin
      injection hfe with hd' hk'
      apply hd
      rw [hd']
      exact List.mem_map_of_mem (fun x => x.1) hflag
    have hfe_unfold : (CallbackContainer.mk (e :: rest)).firedEvents =
        (if e.2.2 then e.2.1.map (fun k' => Event.fireFlush e.1 k') else []) ++
        (CallbackContainer.mk rest).firedEvents := by
      unfold CallbackContainer.firedEvents
      simp only [List.filter_cons]
      by_cases hf : e.2.2 = true
      · rw [if_pos hf, if_pos hf]
        simp [List.flatMap_cons]
      · rw [if_neg hf, if_neg hf]
        simp
    rw [hfe_unfold, List.count_append]
    rcases List.mem_cons.mp hmem with hmem | hmem
    · have he : e = (d, ks, true) := hmem.symm
      subst he
      rw [if_pos rfl]
      have h1 : (ks.map (fun k' => Event.fireFlush d k')).count (Event.fireFlush d k) =
          ks.count k :=
        List.count_map_of_injective ks _ (fun a b hab => by simpa using hab) k
      have h2 := hrest0 (by intro hd; exact hnd.1 (by simpa using hd))
      rw [h1, h2]
      omega
    · have hne : e.1 ≠ d := by
        intro hEq
        apply hnd.1
        rw [hEq]
        simpa using List.mem_map_of_mem (fun x => x.1) hmem
      have h2 := ih d ks hnd.2 hmem k
      by_cases hf : e.2.2 = true
      · rw [if_pos hf]
        have h1 : (e.2.1.map (fun k' => Event.fireFlush e.1 k')).count
            (Event.fireFlush d k) = 0 := by
          rw [List.count_eq_zero]
          intro hcin
          simp only [List.mem_map] at hcin
          obtain ⟨k', _, hk'⟩ := hcin
          injection hk' with hd' _
          exact hne hd'
        rw [h1, h2]
        omega
      · rw [if_neg hf]
        simpa using h2

/-- After the flush of a registry with duplicate-free digests, a previously
flushable digest is gone from the registry. -/
theorem flush_removes (entries : List (Bytes × List Nat × Bool)) (d : Bytes)
    (ks : List Nat) (hnd : (entries.map (fun e => e.1)).Nodup)
    (hmem : (d, ks, true) ∈ entries) :
    d ∉ ((CallbackContainer.mk entries).flush.1.entries.map (fun e => e.1)) := by
  intro hd
  simp only [CallbackContainer.flush, List.mem_map] at hd
  obtain ⟨x, hx, hxd⟩ := hd
  rw [List.mem_filter] at hx
  have hxne : x ≠ (d, ks, true) := by
    intro hEq
    rw [hEq] at hx
    simp at hx
  have hxeq : x = (d, ks, true) :=
    fst_nodup_inj entries hnd x (d, ks, true) hx.1 hmem (by rw [hxd])
  exact hxne hxeq

/-- A commit handled while the flush timer is quiet emits only insertions. -/
theorem commit_no_fire (s : HashIndexState) (h r : Bytes) (s2 : HashIndexState)
    (evs2 : List Event) (hc : commit s h r false = some (s2, evs2)) :
    ∀ e ∈ evs2, ∃ i d, e = Event.insertRow i d := by
  simp only [commit] at hc
  split at hc
  · cases hc
  · rename_i qe hloc
    split at hc
    · cases hc
    · rename_i key hkeyq
      split at hc
      · cases hc
      · rename_i s3 evs3 hdrain
        simp only [maybe_flush, Option.some.injEq, Prod.mk.injEq] at hc
        obtain ⟨h1, h2⟩ := hc
        intro e he
        rw [← h2] at he
        simp only [if_neg (by simp : ¬(false = true)), List.append_nil] at he
        exact drain_all_insert _ _ _ _ hdrain e he

/-- Claim C3: the durability gate. Over any run, a callback registered while
its digest was pending (a fireFlush event) only ever fires after a database
COMMIT that itself follows the insertion of that digest's row; handling
Commit with a quiet timer invokes no callback at all; and the flush of the
registry fires each flushable digest's callbacks exactly as registered and
removes the digest, so a callback runs exactly once. -/
theorem c3_durability_gate :
    (∀ msgs, gateOK ([], []) (run initState msgs).2 = true) ∧
    (∀ (s : HashIndexState) (h r : Bytes),
      fireCount (evsOf (handle s (Msg.commit h r) false)) = 0) ∧
    (∀ (c : CallbackContainer) (d : Bytes) (ks : List Nat),
      (c.entries.map (fun e => e.1)).Nodup → (d, ks, true) ∈ c.entries →
      (∀ k, (c.flush.2).count (Event.fireFlush d k) = ks.count k) ∧
      d ∉ (c.flush.1.entries.map (fun e => e.1))) := by
  refine ⟨?_, ?_, ?_⟩
  · intro msgs
    apply run_gate
    intro d ks hmem
    simp [initState] at hmem
  · intro s h r
    by_cases hne : h = []
    · simp [handle, hne, evsOf, fireCount]
    · cases hc : commit s h r false with
      | none => simp [handle, hne, hc, evsOf, fireCount]
      | some res =>
        obtain ⟨s2, evs2⟩ := res
        simp only [handle, if_neg hne, hc, evsOf, fireCount]
        rw [List.countP_eq_zero]
        intro e he
        obtain ⟨i, d, rfl⟩ := commit_no_fire s h r s2 evs2 hc e he
        simp
  · intro c d ks hnd hmem
    have h1 := fun k => fired_count c.entries d ks hnd hmem k
    have h2 := flush_removes c.entries d ks hnd hmem
    exact ⟨h1, h2⟩

/-- Witness for C3: the gate holds of a concrete reserve, register, commit,
flush run; a concrete quiet-timer commit fires nothing; and a concrete
registry flush fires the one registered callback once and drops its digest. -/
theorem c3_witness :
    gateOK ([], []) (run initState [(Msg.reserve heSample, false),
      (Msg.callAfterHashIsComitted [1] 7, false),
      (Msg.commit [1] [9], false), (Msg.flush, false)]).2 = true ∧
    fireCount (evsOf (handle sPending (Msg.commit [1] [9]) false)) = 0 ∧
    ((CallbackContainer.mk [([1], [7], true)]).flush.2.count (Event.fireFlush [1] 7) =
      [7].count 7 ∧
     [1] ∉ ((CallbackContainer.mk [([1], [7], true)]).flush.1.entries.map (fun e => e.1))) := by
  refine ⟨c3_durability_gate.1 _, c3_durability_gate.2.1 sPending [1] [9], ?_⟩
  have hpack := c3_durability_gate.2.2 (CallbackContainer.mk [([1], [7], true)]) [1] [7]
    (by decide) (by decide)
  exact ⟨hpack.1 7, hpack.2⟩
